import Mathlib

/-!
Verification of the israel-geolocation build pipeline
(src/scripts/build-improved.js, src/scripts/known-missing.cjs).

JavaScript strings are modelled as `List Char`; a value that may be
`null`/`undefined` is modelled as an `Option`.  JavaScript string
truthiness (`undefined`, `null` and `''` are falsy) is `truthyStr`.
`String.prototype.toLowerCase` is modelled character-wise by the ASCII
lowercase map `Char.toLower`; the pipeline's domain strings are Hebrew
(caseless) and ASCII English names, for which this is exact.
-/

/-- JavaScript string, as a list of characters. -/
abbrev JStr := List Char

/-- The set matched by the JavaScript regexp class `\s` (also the set
stripped by `String.prototype.trim`). -/
def isWsChar (c : Char) : Bool :=
  c.toNat = 32 || c.toNat = 9 || c.toNat = 10 || c.toNat = 13 || c.toNat = 11 ||
  c.toNat = 12 || c.toNat = 160 || c.toNat = 0x1680 ||
  (0x2000 ≤ c.toNat && c.toNat ≤ 0x200a) || c.toNat = 0x2028 || c.toNat = 0x2029 ||
  c.toNat = 0x202f || c.toNat = 0x205f || c.toNat = 0x3000 || c.toNat = 0xfeff

/-- `String.prototype.trim`: strip leading and trailing whitespace. -/
def jsTrim (l : JStr) : JStr :=
  ((l.dropWhile isWsChar).reverse.dropWhile isWsChar).reverse

/-- The left-to-right scan of `.replace(/\s+/g, ' ')`: `inRun` records
whether the scanner is inside a whitespace run.  Each maximal whitespace
run emits exactly one space (at its first character); all other
characters pass through. -/
def collapseWsAux : Bool → List Char → List Char
  | _, [] => []
  | inRun, c :: rest =>
    if isWsChar c then
      if inRun then collapseWsAux true rest else ' ' :: collapseWsAux true rest
    else c :: collapseWsAux false rest

/-- `.replace(/\s+/g, ' ')`: every maximal whitespace run becomes one space. -/
def collapseWs (l : List Char) : List Char := collapseWsAux false l

/-- The left-to-right scan of `.replace(/\s*-\s*/g, '-')`.  Whitespace is
buffered in `pending` until the scanner learns whether the run belongs to
a match: a hyphen discards the buffered run (the `\s*` before the `-`)
and turns on `afterHyphen` so that the run after it (the `\s*` after the
`-`) is discarded too; any other character flushes the buffer (discarding
it if it directly followed a hyphen) and passes through.  At the end of
the input a buffered run not claimed by a hyphen is emitted. -/
def deHyphenAux : Bool → List Char → List Char → List Char
  | afterHyphen, pending, [] => if afterHyphen then [] else pending
  | afterHyphen, pending, c :: rest =>
    if c = '-' then '-' :: deHyphenAux true [] rest
    else if isWsChar c then deHyphenAux afterHyphen (pending ++ [c]) rest
    else (if afterHyphen then [] else pending) ++ c :: deHyphenAux false [] rest

/-- `.replace(/\s*-\s*/g, '-')`: drop the whitespace around each hyphen. -/
def deHyphen (l : JStr) : JStr := deHyphenAux false [] l

/-- The ASCII apostrophe, U+0027.  In the source both
`.replace(/'/g, "'")` lines literally replace U+0027 by U+0027. -/
def asciiApos : Char := Char.ofNat 39

/-- `.replace(/'/g, "'")` from the source: replaces each ASCII apostrophe
by an ASCII apostrophe (the patterns and replacements are the same byte). -/
def replaceApos (l : JStr) : JStr :=
  l.map (fun c => if c = asciiApos then asciiApos else c)

/-- `String.prototype.toLowerCase`, character-wise (ASCII range). -/
def jsToLowerStr (l : JStr) : JStr := l.map Char.toLower

/-- `normalizeHebrew` (build-improved.js lines 5-14): empty string on a
falsy argument, otherwise trim, collapse whitespace, despace hyphens,
fold apostrophes (twice), lowercase. -/
def normalizeHebrew (text : Option JStr) : JStr :=
  match text with
  | none => []
  | some t =>
    if t = [] then []
    else jsToLowerStr (replaceApos (replaceApos (deHyphen (collapseWs (jsTrim t)))))

/-- `String.prototype.includes`: `small` occurs contiguously in `big`. -/
def jsIncludes : JStr → JStr → Bool
  | [], small => small.isPrefixOf []
  | big@(_ :: rest), small => small.isPrefixOf big || jsIncludes rest small

/-- One inner iteration block of the Levenshtein table loop
(build-improved.js lines 25-37): given `left = dp[i][j-1]` and the rest of
the previous row from column `j-1` on, produce the current row from
column `j` on. -/
def levRowStep (c1 : Char) : Nat → List Char → List Nat → List Nat
  | _, [], _ => []
  | left, c2 :: str2, pdiag :: prest =>
    match prest with
    | [] => []
    | pj :: _ =>
      let cur := if c1 = c2 then pdiag
                 else Nat.min (pj + 1) (Nat.min (left + 1) (pdiag + 1))
      cur :: levRowStep c1 cur str2 prest
  | _, _ :: _, [] => []

/-- The outer row loop of the Levenshtein table: row `i` starts with
`dp[i][0] = i` and is completed by `levRowStep`. -/
def levLoop (str2 : List Char) : List Char → List Nat → Nat → List Nat
  | [], prev, _ => prev
  | c1 :: rest1, prev, i => levLoop str2 rest1 (i :: levRowStep c1 i str2 prev) (i + 1)

/-- `levenshteinDistance` (build-improved.js lines 17-40): dynamic
programming over the full `(m+1) × (n+1)` table; the answer is `dp[m][n]`,
i.e. the last entry of the last row. -/
def levenshteinDistance (str1 str2 : List Char) : Nat :=
  (levLoop str2 str1 (List.range (str2.length + 1)) 1).getLastD 0

/-- Specification of unit-cost insert/delete/substitute edit distance:
the classic recurrence on leading characters. -/
def levSpec : List Char → List Char → Nat
  | [], ys => ys.length
  | x :: xs, [] => (x :: xs).length
  | x :: xs, y :: ys =>
    if x = y then levSpec xs ys
    else 1 + Nat.min (levSpec xs (y :: ys)) (Nat.min (levSpec (x :: xs) ys) (levSpec xs ys))

/-- An edit script from `xs` to `ys` of total unit cost `n`:
copies are free, substitutions, deletions and insertions cost one. -/
inductive EditScript : List Char → List Char → Nat → Prop
  | nil : EditScript [] [] 0
  | copy (c : Char) {xs ys n} : EditScript xs ys n → EditScript (c :: xs) (c :: ys) n
  | subst (a b : Char) {xs ys n} : EditScript xs ys n → EditScript (a :: xs) (b :: ys) (n + 1)
  | del (a : Char) {xs ys n} : EditScript xs ys n → EditScript (a :: xs) ys (n + 1)
  | ins (b : Char) {xs ys n} : EditScript xs ys n → EditScript xs (b :: ys) (n + 1)

/-- Row semantics of the Levenshtein table: the row whose processed
prefix of `str1` is `P` (stored reversed), read off along the still
unprocessed part of `str2`, relative to the already consumed reversed
prefix `Q` of `str2`.  Entry `j` is the edit distance between `P` and the
reversal of the first `j` unconsumed characters prepended to `Q`. -/
def rowAux (P Q : JStr) : JStr → List Nat
  | [] => [levSpec P Q]
  | c :: rest => levSpec P Q :: rowAux P (c :: Q) rest

/-- `isSimilar` (build-improved.js lines 43-56): equality of normalized
forms, or containment of one in the other, or Levenshtein distance of the
normalized forms within the threshold. -/
def isSimilar (str1 str2 : Option JStr) (threshold : Nat) : Bool :=
  let norm1 := normalizeHebrew str1
  let norm2 := normalizeHebrew str2
  if norm1 = norm2 then true
  else if jsIncludes norm1 norm2 || jsIncludes norm2 norm1 then true
  else levenshteinDistance norm1 norm2 ≤ threshold

/-- JavaScript string truthiness: `undefined`/`null` and `''` are falsy. -/
def truthyStr : Option JStr → Bool
  | none => false
  | some s => !(s.isEmpty)

/-- `a || b` on two possibly-undefined strings. -/
def jsOrStr (a b : Option JStr) : Option JStr :=
  if truthyStr a then a else b

/-- One element of the OpenStreetMap extract: its numeric id, the
relevant name tags (`tags.name`, `tags['name:he']`, `tags['name:en']`,
`tags.int_name`; a missing tag is `none`), and coordinates. -/
structure OsmElement where
  id : Nat
  tagName : Option JStr
  tagNameHe : Option JStr
  tagNameEn : Option JStr
  tagIntName : Option JStr
  lat : Int
  lon : Int
deriving DecidableEq

/-- The `osmLookup` JavaScript `Map`, as an association list with unique
keys in insertion order. -/
abbrev OsmMap := List (JStr × OsmElement)

/-- `Map.prototype.has`. -/
def mapHas (m : OsmMap) (k : JStr) : Bool := m.any (fun kv => kv.1 == k)

/-- `Map.prototype.get` (`none` for an absent key). -/
def mapGet (m : OsmMap) (k : JStr) : Option OsmElement :=
  (m.find? (fun kv => kv.1 == k)).map Prod.snd

/-- `Map.prototype.set`: overwrite in place if the key is present,
otherwise append. -/
def mapSet (m : OsmMap) (k : JStr) (v : OsmElement) : OsmMap :=
  if mapHas m k then m.map (fun kv => if kv.1 == k then (k, v) else kv)
  else m ++ [(k, v)]

/-- The body of `osmData.elements.forEach` (build-improved.js lines
80-101): derive `nameHe = tags.name || tags['name:he']` and
`nameEn = tags['name:en'] || tags.int_name`; insert the normalized Hebrew
key only if absent, then set the raw trimmed Hebrew key unconditionally;
insert the lowercased trimmed English key only if absent. -/
def insertOsmElement (m : OsmMap) (e : OsmElement) : OsmMap :=
  let nameHe := jsOrStr e.tagName e.tagNameHe
  let nameEn := jsOrStr e.tagNameEn e.tagIntName
  let m1 :=
    if truthyStr nameHe then
      let h := nameHe.getD []
      let normalized := normalizeHebrew (some h)
      let mA := if mapHas m normalized then m else mapSet m normalized e
      mapSet mA (jsTrim h) e
    else m
  if truthyStr nameEn then
    let en := nameEn.getD []
    let normalizedEn := jsToLowerStr (jsTrim en)
    if mapHas m1 normalizedEn then m1 else mapSet m1 normalizedEn e
  else m1

/-- `osmLookup` built from the whole extract, in input order. -/
def buildLookup (elements : List OsmElement) : OsmMap :=
  elements.foldl insertOsmElement []

/-- The `manualMatches` object: registry Hebrew name to OSM name. -/
abbrev ManualMatches := List (JStr × JStr)

/-- JavaScript object property lookup (`none` when absent). -/
def objLookup (o : ManualMatches) (k : JStr) : Option JStr :=
  (o.find? (fun kv => kv.1 == k)).map Prod.snd

/-- The `_matchType` values used for reporting. -/
inductive MatchType
  | manual
  | exact_he
  | exact_en
deriving DecidableEq

/-- A raw registry record: the three fields the script reads
(`שם_ישוב`, `שם_ישוב_לועזי`, `סמל_ישוב`), each possibly absent. -/
structure Town where
  hebrewNameRaw : Option JStr
  englishNameRaw : Option JStr
  townCodeRaw : Option JStr
deriving DecidableEq

/-- `id: townCode || osmMatch.id`: a registry code string when truthy,
otherwise the OSM element's numeric id. -/
inductive LocId
  | fromCode (code : JStr)
  | fromOsm (n : Nat)
deriving DecidableEq

/-- A matched location as pushed by the script (with its `_matchType`). -/
structure MatchedLoc where
  id : LocId
  name : Option JStr
  nameEn : Option JStr
  lat : Int
  lon : Int
  matchType : MatchType
deriving DecidableEq

/-- An unmatched town as pushed by the script. -/
structure UnmatchedTown where
  name : Option JStr
  nameEn : Option JStr
  townCode : Option JStr
deriving DecidableEq

/-- The match tiers of build-improved.js lines 126-159, in order:
manual override, exact normalized Hebrew, exact lowercased English;
the first hit wins. -/
def matchTown (osmLookup : OsmMap) (manualMatches : ManualMatches)
    (hebrewName englishName : Option JStr) : Option (OsmElement × MatchType) :=
  let manualRes :=
    if truthyStr hebrewName then
      match objLookup manualMatches (hebrewName.getD []) with
      | some manualOsmName =>
        if manualOsmName.isEmpty then none
        else
          let normalizedManual := normalizeHebrew (some manualOsmName)
          if mapHas osmLookup normalizedManual then
            (mapGet osmLookup normalizedManual).map (fun e => (e, MatchType.manual))
          else if mapHas osmLookup manualOsmName then
            (mapGet osmLookup manualOsmName).map (fun e => (e, MatchType.manual))
          else none
      | none => none
    else none
  match manualRes with
  | some r => some r
  | none =>
    let heRes :=
      if truthyStr hebrewName then
        let normalizedHe := normalizeHebrew hebrewName
        if mapHas osmLookup normalizedHe then
          (mapGet osmLookup normalizedHe).map (fun e => (e, MatchType.exact_he))
        else none
      else none
    match heRes with
    | some r => some r
    | none =>
      if truthyStr englishName then
        let normalizedEn := jsTrim (jsToLowerStr (englishName.getD []))
        if mapHas osmLookup normalizedEn then
          (mapGet osmLookup normalizedEn).map (fun e => (e, MatchType.exact_en))
        else none
      else none

/-- The body of `officialTowns.forEach` (build-improved.js lines 117-182):
skip a record with no truthy name, otherwise run the match tiers and push
either a matched location or an unmatched town. -/
def processTown (osmLookup : OsmMap) (manualMatches : ManualMatches)
    (acc : List MatchedLoc × List UnmatchedTown) (town : Town) :
    List MatchedLoc × List UnmatchedTown :=
  let hebrewName := town.hebrewNameRaw.map jsTrim
  let englishName := town.englishNameRaw.map jsTrim
  let townCode := town.townCodeRaw.map jsTrim
  if !truthyStr hebrewName && !truthyStr englishName then acc
  else
    match matchTown osmLookup manualMatches hebrewName englishName with
    | some (e, mt) =>
      (acc.1 ++ [{ id := if truthyStr townCode then LocId.fromCode (townCode.getD [])
                         else LocId.fromOsm e.id,
                   name := hebrewName, nameEn := englishName,
                   lat := e.lat, lon := e.lon, matchType := mt }], acc.2)
    | none =>
      (acc.1, acc.2 ++ [{ name := hebrewName, nameEn := englishName, townCode := townCode }])

/-- The whole reconciliation pass over the registry. -/
def reconcile (osmLookup : OsmMap) (manualMatches : ManualMatches)
    (officialTowns : List Town) : List MatchedLoc × List UnmatchedTown :=
  officialTowns.foldl (processTown osmLookup manualMatches) ([], [])

/-- A record at the merge/sort stage.  The merge code reads only the
`population` field (absent on every record this pipeline produces, hence
the `|| 0` fallback); `id` is carried opaquely and never inspected. -/
structure MergedRec where
  id : Nat
  population : Option Nat
deriving DecidableEq

/-- The sort key `a.population || 0`. -/
def popKey (r : MergedRec) : Nat := r.population.getD 0

/-- `.sort((a, b) => (b.population || 0) - (a.population || 0))`:
a stable sort descending by population. -/
def jsSortByPopDesc (l : List MergedRec) : List MergedRec :=
  l.mergeSort (fun a b => popKey b ≤ popKey a)

/-- The merge stage (build-improved.js lines 204-220 and 406-415):
concatenate the prior resolved set with the new resolutions, then sort by
population descending.  No deduplication is performed. -/
def mergeLocations (currentLocations successful : List MergedRec) : List MergedRec :=
  jsSortByPopDesc (currentLocations ++ successful)

/-- An entry of `unmatched_towns.json` as the geocoding script reads it.
(The script dereferences `town.name`, so an entry without a local name
would throw before reaching any classification; such entries are outside
the modelled runs.) -/
structure UnmatchedEntry where
  name : JStr
  nameEn : Option JStr
  townCode : Option JStr
deriving DecidableEq

/-- A geocoder HTTP interaction, as distinguished by the script:
status `OK` with a (possibly empty) result list, `ZERO_RESULTS`,
`OVER_QUERY_LIMIT`, any other status, or a thrown fetch error. -/
inductive ApiResponse
  | ok (results : List (Int × Int × JStr))
  | zeroResults
  | overQueryLimit
  | otherStatus (status : JStr)
  | fetchFailed (message : JStr)
deriving DecidableEq

/-- The value returned by `geocodeLocation`. -/
inductive GeocodeResult
  | success (lat lon : Int) (formatted_address : JStr)
  | failure (error : JStr) (fatal : Bool)
deriving DecidableEq

/-- `geocodeLocation` (geocode script lines 306-332), as a function of
the geocoder's response: `OK` with at least one result succeeds;
`ZERO_RESULTS` fails with `'No results found'`; `OVER_QUERY_LIMIT` fails
fatally with `'API quota exceeded'`; any other status (including `OK`
with no results) fails with the status text; a thrown error fails with
its message. -/
def geocodeLocation (resp : ApiResponse) : GeocodeResult :=
  match resp with
  | .ok (r :: _) => .success r.1 r.2.1 r.2.2
  | .ok [] => .failure "OK".data false
  | .zeroResults => .failure "No results found".data false
  | .overQueryLimit => .failure "API quota exceeded".data true
  | .otherStatus s => .failure s false
  | .fetchFailed m => .failure m false

/-- A successful geocode pushed to `results.successful`. -/
structure GeoLocation where
  id : Option JStr
  name : JStr
  nameEn : JStr
  lat : Int
  lon : Int
deriving DecidableEq

/-- A failure pushed to `results.failed`: the town spread together with
the error text. -/
structure FailedEntry where
  town : UnmatchedEntry
  error : JStr
deriving DecidableEq

/-- The accumulated outcome of a geocoding run.  `attempted` instruments
the loop with the indices at which a geocode network request was issued
(the observable set of calls to the geocoder). -/
structure GeoResults where
  successful : List GeoLocation
  failed : List FailedEntry
  skipped : List UnmatchedEntry
  attempted : List Nat
deriving DecidableEq

/-- The empty accumulator `{ successful: [], failed: [], skipped: [] }`. -/
def emptyGeoResults : GeoResults :=
  { successful := [], failed := [], skipped := [], attempted := [] }

/-- The tribal designation substring of the hardcoded skip test. -/
def shevet : JStr := "שבט".data

/-- The placeholder name of the hardcoded skip test. -/
def loRashum : JStr := "לא רשום".data

/-- The skip test of geocode script line 354:
`town.name.includes('שבט') || town.name === 'לא רשום'`. -/
def skipRule (t : UnmatchedEntry) : Bool :=
  jsIncludes t.name shevet || t.name == loRashum

/-- The `for` loop of `geocodeAll` (geocode script lines 349-391), with
the geocoder stubbed by a function from request index to response:
skipped records produce no request; a successful response appends a new
location; a non-fatal failure appends to `failed` and continues; a fatal
failure appends to `failed` and stops the whole remaining queue. -/
def geocodeLoop (stub : Nat → ApiResponse) :
    List UnmatchedEntry → Nat → GeoResults → GeoResults
  | [], _, acc => acc
  | town :: rest, i, acc =>
    if skipRule town then
      geocodeLoop stub rest (i + 1) { acc with skipped := acc.skipped ++ [town] }
    else
      let acc1 := { acc with attempted := acc.attempted ++ [i] }
      match geocodeLocation (stub i) with
      | .success lat lon _ =>
        geocodeLoop stub rest (i + 1)
          { acc1 with successful := acc1.successful ++
              [{ id := town.townCode, name := town.name,
                 nameEn := town.nameEn.getD [], lat := lat, lon := lon }] }
      | .failure err fatal =>
        let acc2 := { acc1 with failed := acc1.failed ++ [{ town := town, error := err }] }
        if fatal then acc2 else geocodeLoop stub rest (i + 1) acc2

/-- `geocodeAll` over a queue, from the empty accumulator. -/
def geocodeAll (stub : Nat → ApiResponse) (unmatched : List UnmatchedEntry) : GeoResults :=
  geocodeLoop stub unmatched 0 emptyGeoResults

/-- No leading whitespace. -/
def noLeadWs (l : JStr) : Prop := ∀ c, l.head? = some c → isWsChar c = false

/-- No trailing whitespace. -/
def noTrailWs (l : JStr) : Prop := ∀ c, l.getLast? = some c → isWsChar c = false

/-- Every whitespace character is a plain space. -/
def wsIsSpace (l : JStr) : Prop := ∀ c ∈ l, isWsChar c = true → c = ' '

/-- No two adjacent whitespace characters. -/
def noAdjWs (l : JStr) : Prop :=
  List.Chain' (fun a b => isWsChar a = true → isWsChar b = false) l

/-- Adjacency constraint after hyphen despacing: whitespace is never
followed by whitespace or a hyphen, and a hyphen is never followed by
whitespace. -/
def wsHyphenFree (a b : Char) : Prop :=
  (isWsChar a = true → isWsChar b = false ∧ b ≠ '-') ∧ (a = '-' → isWsChar b = false)

/-- `wsHyphenFree` along the whole string. -/
def chainWsHyphen (l : JStr) : Prop := List.Chain' wsHyphenFree l

/-- The denylist of src/scripts/known-missing.cjs (lines 4-31), verbatim.
Two entries contain an ASCII apostrophe, spliced in as `asciiApos`. -/
def knownMissing : List JStr :=
  [ "לא רשום".data,
    "שמעה".data,
    "אעצם (שבט)".data,
    "אבו עבדון (שבט)".data,
    "אבו עמאר (שבט)".data,
    "אבו עמרה (שבט)".data,
    "אבו ג".data ++ [asciiApos] ++ "ווייעד (שבט)".data,
    "אבו קורינאת (שבט)".data,
    "אבו רובייעה (שבט)".data,
    "אבו רוקייק (שבט)".data,
    "אבו סריחאן (שבט)".data,
    "אפיניש (שבט)".data,
    "אסד (שבט)".data,
    "עטאוונה (שבט)".data,
    "הוואשלה (שבט)".data,
    "הוזייל (שבט)".data,
    "ג".data ++ [asciiApos] ++ "נאביב (שבט)".data,
    "קבועה (שבט)".data,
    "קוואעין (שבט)".data,
    "קודייראת א-צאנע(שבט)".data,
    "סואעד (כמאנה) (שבט)".data,
    "תראבין א-צאנע (שבט)".data,
    "זבארגה (שבט)".data ]

/-- Two OSM elements sharing the Hebrew name `א` (concrete inputs). -/
def e1cx : OsmElement :=
  { id := 1, tagName := some "א".data, tagNameHe := none, tagNameEn := none,
    tagIntName := none, lat := 1, lon := 2 }

/-- Second writer of the key `א`. -/
def e2cx : OsmElement :=
  { id := 2, tagName := some "א".data, tagNameHe := none, tagNameEn := none,
    tagIntName := none, lat := 3, lon := 4 }

/-- An OSM element carrying only an English name (concrete input). -/
def eEn : OsmElement :=
  { id := 7, tagName := none, tagNameHe := none, tagNameEn := some "Acre".data,
    tagIntName := none, lat := 10, lon := 20 }

/-- A registry record with only an English name (concrete input). -/
def tEn : Town :=
  { hebrewNameRaw := none, englishNameRaw := some " Acre ".data,
    townCodeRaw := some "123".data }

/-- A registry record whose names are absent everywhere (concrete input). -/
def tMiss : Town :=
  { hebrewNameRaw := some "שם".data, englishNameRaw := none,
    townCodeRaw := some "1".data }

/-- Concrete unmatched entries for the gap-filler runs. -/
def tA : UnmatchedEntry := { name := "א".data, nameEn := none, townCode := some "1".data }

/-- Second entry of the quota run. -/
def tB : UnmatchedEntry := { name := "ב".data, nameEn := none, townCode := some "2".data }

/-- Third entry of the quota run (never attempted). -/
def tC : UnmatchedEntry := { name := "ג".data, nameEn := none, townCode := some "3".data }

/-- A stub geocoder answering `OK`, then `OVER_QUERY_LIMIT`, then `OK`. -/
def quotaStub : Nat → ApiResponse := fun i =>
  if i = 0 then ApiResponse.ok [(32, 35, "addr".data)]
  else if i = 1 then ApiResponse.overQueryLimit
  else ApiResponse.ok [(1, 2, "x".data)]

/-- A stub geocoder that always answers `ZERO_RESULTS`. -/
def zeroStub : Nat → ApiResponse := fun _ => ApiResponse.zeroResults

/-- The denylist entry `שמעה`, as an unmatched record. -/
def tShimaa : UnmatchedEntry := { name := "שמעה".data, nameEn := none, townCode := none }

/-- A tribal denylist entry, as an unmatched record. -/
def tShevet : UnmatchedEntry :=
  { name := "אעצם (שבט)".data, nameEn := none, townCode := none }

/-- Prior resolved records of the merge counterexample. -/
def cxPrior : List MergedRec :=
  [{ id := 1, population := some 999 }, { id := 2, population := some 50 }]

/-- New resolutions of the merge counterexample: the same id `1` again. -/
def cxNew : List MergedRec := [{ id := 1, population := some 100 }]

/-! ### Character-level facts about the ASCII lowercase map -/

theorem char_toNat_ofNat (n : Nat) (h : n.isValidChar) : (Char.ofNat n).toNat = n := by
  simp only [Char.ofNat, dif_pos h]
  rfl

theorem toLower_eq_self_of_not (c : Char) (h : ¬(c.toNat ≥ 65 ∧ c.toNat ≤ 90)) :
    Char.toLower c = c := by
  unfold Char.toLower
  exact if_neg h

theorem toLower_toNat_of_upper (c : Char) (h : c.toNat ≥ 65 ∧ c.toNat ≤ 90) :
    (Char.toLower c).toNat = c.toNat + 32 := by
  unfold Char.toLower
  rw [if_pos h]
  exact char_toNat_ofNat _ (Or.inl (by omega))

theorem toLower_toLower (c : Char) :
    Char.toLower (Char.toLower c) = Char.toLower c := by
  by_cases h : c.toNat ≥ 65 ∧ c.toNat ≤ 90
  · exact toLower_eq_self_of_not _ (by rw [toLower_toNat_of_upper c h]; omega)
  · rw [toLower_eq_self_of_not c h]
    exact toLower_eq_self_of_not c h

theorem isWsChar_toLower (c : Char) : isWsChar (Char.toLower c) = isWsChar c := by
  by_cases h : c.toNat ≥ 65 ∧ c.toNat ≤ 90
  · have h32 := toLower_toNat_of_upper c h
    have e1 : isWsChar (Char.toLower c) = false := by simp [isWsChar, h32]; omega
    have e2 : isWsChar c = false := by simp [isWsChar]; omega
    rw [e1, e2]
  · rw [toLower_eq_self_of_not c h]

theorem toLower_eq_space_iff (c : Char) : Char.toLower c = ' ' ↔ c = ' ' := by
  constructor
  · intro hc
    by_cases h : c.toNat ≥ 65 ∧ c.toNat ≤ 90
    · have := toLower_toNat_of_upper c h
      rw [hc] at this
      simp at this
      omega
    · rwa [toLower_eq_self_of_not c h] at hc
  · intro hc
    rw [hc]
    decide

theorem toLower_eq_hyphen_iff (c : Char) : Char.toLower c = '-' ↔ c = '-' := by
  constructor
  · intro hc
    by_cases h : c.toNat ≥ 65 ∧ c.toNat ≤ 90
    · have := toLower_toNat_of_upper c h
      rw [hc] at this
      simp at this
      omega
    · rwa [toLower_eq_self_of_not c h] at hc
  · intro hc
    rw [hc]
    decide

/-! ### jsTrim -/

theorem head?_dropWhile_ws (l : JStr) :
    ∀ c, (l.dropWhile isWsChar).head? = some c → isWsChar c = false := by
  intro c h
  have := List.head?_dropWhile_not isWsChar l
  rw [h] at this
  exact this

theorem dropWhile_ws_eq_self (l : JStr) (h : ∀ c, l.head? = some c → isWsChar c = false) :
    l.dropWhile isWsChar = l := by
  cases l with
  | nil => rfl
  | cons c rest =>
    have := h c rfl
    simp [List.dropWhile_cons, this]

theorem suffix_getLast?_eq {t l : JStr} (h : t <:+ l) (hne : t ≠ []) :
    t.getLast? = l.getLast? := by
  obtain ⟨s, rfl⟩ := h
  rw [List.getLast?_append]
  cases ht : t.getLast? with
  | none =>
    exact absurd (by simpa using ht) hne
  | some a => rfl

theorem noLeadWs_jsTrim (l : JStr) : noLeadWs (jsTrim l) := by
  intro c hc
  unfold jsTrim at hc
  rw [List.head?_reverse] at hc
  set Z : JStr := (l.dropWhile isWsChar).reverse with hZ
  have hsuf : Z.dropWhile isWsChar <:+ Z := List.dropWhile_suffix _
  have hne : Z.dropWhile isWsChar ≠ [] := by
    intro hnil
    rw [hnil] at hc
    simp at hc
  rw [suffix_getLast?_eq hsuf hne] at hc
  rw [hZ, List.getLast?_reverse] at hc
  exact head?_dropWhile_ws l c hc

theorem noTrailWs_jsTrim (l : JStr) : noTrailWs (jsTrim l) := by
  intro c hc
  unfold jsTrim at hc
  rw [List.getLast?_reverse] at hc
  exact head?_dropWhile_ws _ c hc

theorem jsTrim_eq_self (l : JStr) (h1 : noLeadWs l) (h2 : noTrailWs l) : jsTrim l = l := by
  unfold jsTrim
  rw [dropWhile_ws_eq_self l h1]
  rw [dropWhile_ws_eq_self l.reverse (by intro c hc; rw [List.head?_reverse] at hc; exact h2 c hc)]
  exact List.reverse_reverse l

/-! ### collapseWs: output invariants and fixed points -/

theorem collapseAux_nil (flag : Bool) : collapseWsAux flag [] = [] := by
  cases flag <;> rfl

theorem collapseAux_ws_false {c : Char} (rest : JStr) (hws : isWsChar c = true) :
    collapseWsAux false (c :: rest) = ' ' :: collapseWsAux true rest := by
  simp [collapseWsAux, hws]

theorem collapseAux_ws_true {c : Char} (rest : JStr) (hws : isWsChar c = true) :
    collapseWsAux true (c :: rest) = collapseWsAux true rest := by
  simp [collapseWsAux, hws]

theorem collapseAux_not_ws {c : Char} (rest : JStr) (flag : Bool) (hws : isWsChar c = false) :
    collapseWsAux flag (c :: rest) = c :: collapseWsAux false rest := by
  simp [collapseWsAux, hws]

theorem getLast?_cons_ne_nil {α : Type} (a : α) {X : List α} (h : X ≠ []) :
    (a :: X).getLast? = X.getLast? := by
  cases X with
  | nil => exact absurd rfl h
  | cons b Y => simp

theorem mem_of_getLast?_eq {α : Type} {l : List α} {a : α} (h : l.getLast? = some a) :
    a ∈ l := by
  induction l with
  | nil => simp at h
  | cons b Y ih =>
    cases Y with
    | nil =>
      simp at h
      simp [h]
    | cons c Z =>
      rw [getLast?_cons_ne_nil b (by simp)] at h
      exact List.mem_cons_of_mem b (ih h)

theorem wsIsSpace_collapseAux (l : JStr) : ∀ flag, wsIsSpace (collapseWsAux flag l) := by
  induction l with
  | nil =>
    intro flag c hc
    rw [collapseAux_nil] at hc
    simp at hc
  | cons c rest ih =>
    intro flag c' hc' hws'
    by_cases hws : isWsChar c = true
    · cases flag with
      | true =>
        rw [collapseAux_ws_true rest hws] at hc'
        exact ih true c' hc' hws'
      | false =>
        rw [collapseAux_ws_false rest hws] at hc'
        rcases List.mem_cons.mp hc' with h1 | h2
        · exact h1
        · exact ih true c' h2 hws'
    · rw [collapseAux_not_ws rest flag (by simpa using hws)] at hc'
      rcases List.mem_cons.mp hc' with h1 | h2
      · rw [h1] at hws'
        exact absurd hws' hws
      · exact ih false c' h2 hws'

theorem collapseAux_true_head (l : JStr) :
    ∀ c', (collapseWsAux true l).head? = some c' → isWsChar c' = false := by
  induction l with
  | nil =>
    intro c' hc'
    rw [collapseAux_nil] at hc'
    simp at hc'
  | cons c rest ih =>
    intro c' hc'
    by_cases hws : isWsChar c = true
    · rw [collapseAux_ws_true rest hws] at hc'
      exact ih c' hc'
    · rw [collapseAux_not_ws rest true (by simpa using hws)] at hc'
      simp at hc'
      rw [← hc']
      simpa using hws

theorem noAdjWs_collapseAux (l : JStr) :
    noAdjWs (collapseWsAux false l) ∧ noAdjWs (collapseWsAux true l) := by
  induction l with
  | nil => constructor <;> (rw [collapseAux_nil]; exact List.chain'_nil)
  | cons c rest ih =>
    by_cases hws : isWsChar c = true
    · constructor
      · rw [collapseAux_ws_false rest hws]
        rw [noAdjWs, List.chain'_cons']
        constructor
        · intro b hb _
          exact collapseAux_true_head rest b hb
        · exact ih.2
      · rw [collapseAux_ws_true rest hws]
        exact ih.2
    · have hws' : isWsChar c = false := by simpa using hws
      constructor <;>
      · rw [collapseAux_not_ws rest _ hws']
        rw [noAdjWs, List.chain'_cons']
        exact ⟨fun b _ h => absurd h hws, ih.1⟩

theorem noLeadWs_collapseWs (l : JStr) (h : noLeadWs l) : noLeadWs (collapseWs l) := by
  cases l with
  | nil =>
    intro c hc
    rw [collapseWs, collapseAux_nil] at hc
    simp at hc
  | cons c rest =>
    have hc := h c rfl
    intro c' hc'
    rw [collapseWs, collapseAux_not_ws rest false hc] at hc'
    simp at hc'
    rw [← hc']
    exact hc

theorem collapseAux_false_ne_nil (l : JStr) (h : l ≠ []) : collapseWsAux false l ≠ [] := by
  cases l with
  | nil => exact absurd rfl h
  | cons c rest =>
    by_cases hws : isWsChar c = true
    · rw [collapseAux_ws_false rest hws]
      simp
    · rw [collapseAux_not_ws rest false (by simpa using hws)]
      simp

theorem collapseAux_true_ne_nil (l : JStr) (h : ∃ c ∈ l, isWsChar c = false) :
    collapseWsAux true l ≠ [] := by
  induction l with
  | nil => simp at h
  | cons c rest ih =>
    by_cases hws : isWsChar c = true
    · rw [collapseAux_ws_true rest hws]
      apply ih
      obtain ⟨d, hd, hdws⟩ := h
      rcases List.mem_cons.mp hd with h1 | h2
      · rw [h1] at hdws
        rw [hws] at hdws
        exact absurd hdws (by simp)
      · exact ⟨d, h2, hdws⟩
    · rw [collapseAux_not_ws rest true (by simpa using hws)]
      simp

theorem noTrailWs_collapseAux (l : JStr) (h : noTrailWs l) :
    ∀ flag, noTrailWs (collapseWsAux flag l) := by
  induction l with
  | nil =>
    intro flag c hc
    rw [collapseAux_nil] at hc
    simp at hc
  | cons c rest ih =>
    intro flag
    by_cases hrest : rest = []
    · subst hrest
      have hc : isWsChar c = false := h c (by simp)
      intro c' hc'
      rw [collapseAux_not_ws [] flag hc, collapseAux_nil] at hc'
      simp at hc'
      rw [← hc']
      exact hc
    · have hrest' : noTrailWs rest := by
        intro c' hc'
        apply h c'
        rw [getLast?_cons_ne_nil c hrest]
        exact hc'
      have hex : ∃ d ∈ rest, isWsChar d = false := by
        cases hg : rest.getLast? with
        | none => exact absurd (by simpa using hg) hrest
        | some d => exact ⟨d, mem_of_getLast?_eq hg, hrest' d hg⟩
      by_cases hws : isWsChar c = true
      · cases flag with
        | true =>
          rw [collapseAux_ws_true rest hws]
          exact ih hrest' true
        | false =>
          rw [collapseAux_ws_false rest hws]
          intro c' hc'
          rw [getLast?_cons_ne_nil ' ' (collapseAux_true_ne_nil rest hex)] at hc'
          exact ih hrest' true c' hc'
      · rw [collapseAux_not_ws rest flag (by simpa using hws)]
        intro c' hc'
        rw [getLast?_cons_ne_nil c (collapseAux_false_ne_nil rest hrest)] at hc'
        exact ih hrest' false c' hc'

theorem collapseAux_id (l : JStr) (hspace : wsIsSpace l) (hadj : noAdjWs l) :
    collapseWsAux false l = l ∧ (noLeadWs l → collapseWsAux true l = l) := by
  induction l with
  | nil => exact ⟨rfl, fun _ => rfl⟩
  | cons c rest ih =>
    have hspace' : wsIsSpace rest := fun d hd => hspace d (List.mem_cons_of_mem c hd)
    have hadj' : noAdjWs rest := (List.chain'_cons'.mp hadj).2
    have ihr := ih hspace' hadj'
    constructor
    · by_cases hws : isWsChar c = true
      · have hc : c = ' ' := hspace c (by simp) hws
        rw [collapseAux_ws_false rest hws]
        have hlead : noLeadWs rest := by
          intro b hb
          exact (List.chain'_cons'.mp hadj).1 b hb hws
        rw [ihr.2 hlead, hc]
      · rw [collapseAux_not_ws rest false (by simpa using hws), ihr.1]
    · intro hlead
      have hc : isWsChar c = false := hlead c rfl
      rw [collapseAux_not_ws rest true hc, ihr.1]

/-! ### deHyphen: output invariants and fixed points -/

theorem hyphen_not_ws : isWsChar '-' = false := by decide

theorem deHyphenAux_nil (flag : Bool) (pending : JStr) :
    deHyphenAux flag pending [] = if flag then [] else pending := by
  cases flag <;> rfl

theorem deHyphenAux_hyphen (flag : Bool) (pending rest : JStr) :
    deHyphenAux flag pending ('-' :: rest) = '-' :: deHyphenAux true [] rest := by
  simp [deHyphenAux]

theorem deHyphenAux_ws {c : Char} (flag : Bool) (pending rest : JStr)
    (hws : isWsChar c = true) :
    deHyphenAux flag pending (c :: rest) = deHyphenAux flag (pending ++ [c]) rest := by
  have hc : c ≠ '-' := by
    intro h
    rw [h, hyphen_not_ws] at hws
    simp at hws
  simp [deHyphenAux, hws, hc]

theorem deHyphenAux_other_false {c : Char} (pending rest : JStr)
    (hws : isWsChar c = false) (hc : c ≠ '-') :
    deHyphenAux false pending (c :: rest) = pending ++ c :: deHyphenAux false [] rest := by
  simp [deHyphenAux, hws, hc]

theorem deHyphenAux_other_true {c : Char} (pending rest : JStr)
    (hws : isWsChar c = false) (hc : c ≠ '-') :
    deHyphenAux true pending (c :: rest) = c :: deHyphenAux false [] rest := by
  simp [deHyphenAux, hws, hc]

theorem deHyphen_noLead (l : JStr) (h : noLeadWs l) : noLeadWs (deHyphen l) := by
  cases l with
  | nil => intro c hc; simp [deHyphen, deHyphenAux_nil] at hc
  | cons c rest =>
    have hc : isWsChar c = false := h c rfl
    by_cases hh : c = '-'
    · subst hh
      intro c' hc'
      rw [deHyphen, deHyphenAux_hyphen] at hc'
      simp at hc'
      rw [← hc']
      exact hyphen_not_ws
    · intro c' hc'
      rw [deHyphen, deHyphenAux_other_false [] rest hc hh] at hc'
      simp at hc'
      rw [← hc']
      exact hc

theorem deHyphenAux_chain (l : JStr) (hadj : noAdjWs l) :
    ∀ flag pending,
      (pending = [] ∨ ∃ w, pending = [w] ∧ isWsChar w = true ∧
        (∀ d, l.head? = some d → isWsChar d = false)) →
      chainWsHyphen (deHyphenAux flag pending l) ∧
      (∀ c', (deHyphenAux flag pending l).head? = some c' →
        isWsChar c' = true → flag = false) := by
  induction l with
  | nil =>
    intro flag pending hp
    rw [deHyphenAux_nil]
    cases flag with
    | true => exact ⟨List.chain'_nil, by simp⟩
    | false =>
      rcases hp with h | ⟨w, hw, _, _⟩
      · subst h
        exact ⟨List.chain'_nil, by simp⟩
      · subst hw
        refine ⟨List.chain'_singleton w, ?_⟩
        intro c' _ _
        rfl
  | cons c rest ih =>
    have hadj' : noAdjWs rest := (List.chain'_cons'.mp hadj).2
    intro flag pending hp
    by_cases hh : c = '-'
    · subst hh
      rw [deHyphenAux_hyphen]
      obtain ⟨ch, hi⟩ := ih hadj' true [] (Or.inl rfl)
      constructor
      · rw [chainWsHyphen, List.chain'_cons']
        refine ⟨?_, ch⟩
        intro b hb
        constructor
        · intro habs
          rw [hyphen_not_ws] at habs
          simp at habs
        · intro _
          by_contra hbs
          have : flag = flag := rfl
          have hbw : isWsChar b = true := by
            cases hxx : isWsChar b
            · exact absurd hxx hbs
            · rfl
          have := hi b hb hbw
          simp at this
      · intro c' hc' hws'
        simp at hc'
        rw [← hc'] at hws'
        rw [hyphen_not_ws] at hws'
        simp at hws'
    · by_cases hws : isWsChar c = true
      · rw [deHyphenAux_ws flag pending rest hws]
        have hpend : pending = [] := by
          rcases hp with h | ⟨w, hw, _, hhead⟩
          · exact h
          · have := hhead c rfl
            rw [hws] at this
            simp at this
        subst hpend
        apply ih hadj'
        refine Or.inr ⟨c, rfl, hws, ?_⟩
        intro d hd
        exact (List.chain'_cons'.mp hadj).1 d hd hws
      · have hws' : isWsChar c = false := by simpa using hws
        obtain ⟨chX, hiX⟩ := ih hadj' false [] (Or.inl rfl)
        have hcons : chainWsHyphen (c :: deHyphenAux false [] rest) := by
          rw [chainWsHyphen, List.chain'_cons']
          refine ⟨?_, chX⟩
          intro b _
          constructor
          · intro habs
            rw [hws'] at habs
            simp at habs
          · intro habs
            exact absurd habs hh
        cases flag with
        | true =>
          rw [deHyphenAux_other_true pending rest hws' hh]
          refine ⟨hcons, ?_⟩
          intro c' hc' hws''
          simp at hc'
          rw [← hc'] at hws''
          rw [hws'] at hws''
          simp at hws''
        | false =>
          rw [deHyphenAux_other_false pending rest hws' hh]
          rcases hp with h | ⟨w, hw, hwws, _⟩
          · subst h
            simp only [List.nil_append]
            refine ⟨hcons, ?_⟩
            intro c' hc' hws''
            trivial
          · subst hw
            simp only [List.cons_append, List.nil_append]
            refine ⟨?_, ?_⟩
            · rw [chainWsHyphen, List.chain'_cons']
              refine ⟨?_, hcons⟩
              intro b hb
              simp at hb
              rw [← hb]
              constructor
              · intro _
                exact ⟨hws', hh⟩
              · intro habs
                rw [habs, hyphen_not_ws] at hwws
                simp at hwws
            · intro c' _ _
              trivial

theorem deHyphenAux_noTrail (l : JStr) (h : noTrailWs l) :
    ∀ flag pending, (pending ≠ [] → l ≠ []) → noTrailWs (deHyphenAux flag pending l) := by
  induction l with
  | nil =>
    intro flag pending hp
    rw [deHyphenAux_nil]
    cases flag with
    | true => intro c hc; simp at hc
    | false =>
      have : pending = [] := by
        by_contra hne
        exact absurd rfl (hp hne)
      subst this
      intro c hc
      simp at hc
  | cons c rest ih =>
    intro flag pending _
    by_cases hh : c = '-'
    · subst hh
      rw [deHyphenAux_hyphen]
      by_cases hX : deHyphenAux true [] rest = []
      · rw [hX]
        intro c' hc'
        simp at hc'
        rw [← hc']
        exact hyphen_not_ws
      · intro c' hc'
        rw [getLast?_cons_ne_nil '-' hX] at hc'
        have hrest : rest ≠ [] := by
          intro hr
          subst hr
          exact hX (by rw [deHyphenAux_nil]; rfl)
        have hrest' : noTrailWs rest := by
          intro d hd
          apply h d
          rw [getLast?_cons_ne_nil '-' hrest]
          exact hd
        exact ih hrest' true [] (by simp) c' hc'
    · by_cases hws : isWsChar c = true
      · rw [deHyphenAux_ws flag pending rest hws]
        have hrest : rest ≠ [] := by
          intro hr
          subst hr
          have := h c (by simp)
          rw [hws] at this
          simp at this
        have hrest' : noTrailWs rest := by
          intro d hd
          apply h d
          rw [getLast?_cons_ne_nil c hrest]
          exact hd
        exact ih hrest' flag (pending ++ [c]) (fun _ => hrest)
      · have hws' : isWsChar c = false := by simpa using hws
        have heq : deHyphenAux flag pending (c :: rest) =
            (if flag then [] else pending) ++ c :: deHyphenAux false [] rest := by
          cases flag with
          | true => rw [deHyphenAux_other_true pending rest hws' hh]; rfl
          | false => rw [deHyphenAux_other_false pending rest hws' hh]; rfl
        rw [heq]
        intro c' hc'
        rw [List.getLast?_append] at hc'
        have hsome : (c :: deHyphenAux false [] rest).getLast?.isSome := by
          rw [List.getLast?_isSome]
          simp
        rw [Option.isSome_iff_exists] at hsome
        obtain ⟨y, hy⟩ := hsome
        rw [hy] at hc'
        simp at hc'
        rw [hc'] at hy
        by_cases hX : deHyphenAux false [] rest = []
        · rw [hX] at hy
          simp at hy
          rw [← hy]
          exact hws'
        · rw [getLast?_cons_ne_nil c hX] at hy
          have hrest : rest ≠ [] := by
            intro hr
            subst hr
            exact hX (by rw [deHyphenAux_nil]; rfl)
          have hrest' : noTrailWs rest := by
            intro d hd
            apply h d
            rw [getLast?_cons_ne_nil c hrest]
            exact hd
          exact ih hrest' false [] (by simp) c' hy

theorem deHyphenAux_mem (l : JStr) :
    ∀ flag pending c', c' ∈ deHyphenAux flag pending l → c' ∈ pending ∨ c' ∈ l ∨ c' = '-' := by
  induction l with
  | nil =>
    intro flag pending c' hc'
    rw [deHyphenAux_nil] at hc'
    cases flag with
    | true => simp at hc'
    | false => exact Or.inl (by simpa using hc')
  | cons c rest ih =>
    intro flag pending c' hc'
    by_cases hh : c = '-'
    · subst hh
      rw [deHyphenAux_hyphen] at hc'
      rcases List.mem_cons.mp hc' with h1 | h2
      · exact Or.inr (Or.inr h1)
      · rcases ih true [] c' h2 with h3 | h3 | h3
        · simp at h3
        · exact Or.inr (Or.inl (List.mem_cons_of_mem _ h3))
        · exact Or.inr (Or.inr h3)
    · by_cases hws : isWsChar c = true
      · rw [deHyphenAux_ws flag pending rest hws] at hc'
        rcases ih flag (pending ++ [c]) c' hc' with h1 | h1 | h1
        · rcases List.mem_append.mp h1 with h2 | h2
          · exact Or.inl h2
          · simp at h2
            rw [h2]
            exact Or.inr (Or.inl (by simp))
        · exact Or.inr (Or.inl (List.mem_cons_of_mem _ h1))
        · exact Or.inr (Or.inr h1)
      · have hws' : isWsChar c = false := by simpa using hws
        have heq : deHyphenAux flag pending (c :: rest) =
            (if flag then [] else pending) ++ c :: deHyphenAux false [] rest := by
          cases flag with
          | true => rw [deHyphenAux_other_true pending rest hws' hh]; rfl
          | false => rw [deHyphenAux_other_false pending rest hws' hh]; rfl
        rw [heq] at hc'
        rcases List.mem_append.mp hc' with h1 | h1
        · cases flag with
          | true => simp at h1
          | false => exact Or.inl (by simpa using h1)
        · rcases List.mem_cons.mp h1 with h2 | h2
          · rw [h2]
            exact Or.inr (Or.inl (by simp))
          · rcases ih false [] c' h2 with h3 | h3 | h3
            · simp at h3
            · exact Or.inr (Or.inl (List.mem_cons_of_mem _ h3))
            · exact Or.inr (Or.inr h3)

theorem wsIsSpace_deHyphen (l : JStr) (h : wsIsSpace l) : wsIsSpace (deHyphen l) := by
  intro c' hc' hws'
  rcases deHyphenAux_mem l false [] c' hc' with h1 | h1 | h1
  · simp at h1
  · exact h c' h1 hws'
  · rw [h1, hyphen_not_ws] at hws'
    simp at hws'

theorem deHyphenAux_id (l : JStr) (hch : chainWsHyphen l) :
    deHyphenAux false [] l = l ∧
    (∀ w, isWsChar w = true →
      (∀ d, l.head? = some d → isWsChar d = false ∧ d ≠ '-') →
      deHyphenAux false [w] l = w :: l) ∧
    ((∀ d, l.head? = some d → isWsChar d = false) → deHyphenAux true [] l = l) := by
  induction l with
  | nil =>
    refine ⟨rfl, ?_, fun _ => rfl⟩
    intro w _ _
    rfl
  | cons c rest ih =>
    have hch' : chainWsHyphen rest := (List.chain'_cons'.mp hch).2
    obtain ⟨ihA, ihB, ihC⟩ := ih hch'
    have headC : c = '-' → ∀ d, rest.head? = some d → isWsChar d = false := by
      intro hc d hd
      exact ((List.chain'_cons'.mp hch).1 d hd).2 hc
    have headWs : isWsChar c = true → ∀ d, rest.head? = some d →
        isWsChar d = false ∧ d ≠ '-' := by
      intro hc d hd
      exact ((List.chain'_cons'.mp hch).1 d hd).1 hc
    refine ⟨?_, ?_, ?_⟩
    · by_cases hh : c = '-'
      · subst hh
        rw [deHyphenAux_hyphen, ihC (headC rfl)]
      · by_cases hws : isWsChar c = true
        · rw [deHyphenAux_ws false [] rest hws]
          exact ihB c hws (headWs hws)
        · rw [deHyphenAux_other_false [] rest (by simpa using hws) hh, ihA]
          rfl
    · intro w hw hd
      have hcws : isWsChar c = false ∧ c ≠ '-' := hd c rfl
      rw [deHyphenAux_other_false [w] rest hcws.1 hcws.2, ihA]
      rfl
    · intro hd
      have hcws : isWsChar c = false := hd c rfl
      by_cases hh : c = '-'
      · subst hh
        rw [deHyphenAux_hyphen, ihC (headC rfl)]
      · rw [deHyphenAux_other_true [] rest hcws hh, ihA]

/-! ### Transfer of the normal-form invariants through the lowercase map -/

theorem replaceApos_eq_self (l : JStr) : replaceApos l = l := by
  induction l with
  | nil => rfl
  | cons c rest ih =>
    rw [replaceApos, List.map_cons]
    rw [show (if c = asciiApos then asciiApos else c) = c by
      by_cases h : c = asciiApos
      · rw [if_pos h, h]
      · rw [if_neg h]]
    rw [← replaceApos, ih]

theorem jsToLowerStr_idem (l : JStr) : jsToLowerStr (jsToLowerStr l) = jsToLowerStr l := by
  rw [jsToLowerStr, jsToLowerStr, List.map_map]
  induction l with
  | nil => rfl
  | cons c rest ih =>
    rw [List.map_cons, List.map_cons, ih]
    rw [Function.comp_apply, toLower_toLower]

theorem noLeadWs_jsToLowerStr (l : JStr) (h : noLeadWs l) : noLeadWs (jsToLowerStr l) := by
  intro c hc
  rw [jsToLowerStr, List.head?_map] at hc
  cases hl : l.head? with
  | none => rw [hl] at hc; simp at hc
  | some d =>
    rw [hl] at hc
    simp at hc
    rw [← hc, isWsChar_toLower]
    exact h d hl

theorem noTrailWs_jsToLowerStr (l : JStr) (h : noTrailWs l) : noTrailWs (jsToLowerStr l) := by
  intro c hc
  rw [jsToLowerStr, List.getLast?_eq_head?_reverse, ← List.map_reverse, List.head?_map] at hc
  cases hl : l.reverse.head? with
  | none => rw [hl] at hc; simp at hc
  | some d =>
    rw [hl] at hc
    simp at hc
    rw [← hc, isWsChar_toLower]
    apply h d
    rw [List.getLast?_eq_head?_reverse]
    exact hl

theorem wsIsSpace_jsToLowerStr (l : JStr) (h : wsIsSpace l) : wsIsSpace (jsToLowerStr l) := by
  intro c hc hws
  rw [jsToLowerStr] at hc
  obtain ⟨d, hd, hdc⟩ := List.mem_map.mp hc
  rw [← hdc, isWsChar_toLower] at hws
  rw [← hdc, h d hd hws]
  decide

theorem chainWsHyphen_jsToLowerStr (l : JStr) (h : chainWsHyphen l) :
    chainWsHyphen (jsToLowerStr l) := by
  rw [chainWsHyphen, jsToLowerStr, List.chain'_map]
  apply List.Chain'.imp ?_ h
  intro a b hab
  constructor
  · intro hws
    rw [isWsChar_toLower] at hws
    obtain ⟨h1, h2⟩ := hab.1 hws
    constructor
    · rw [isWsChar_toLower]
      exact h1
    · intro habs
      exact h2 ((toLower_eq_hyphen_iff b).mp habs)
  · intro hhy
    rw [isWsChar_toLower]
    exact hab.2 ((toLower_eq_hyphen_iff a).mp hhy)

theorem noAdjWs_of_chainWsHyphen (l : JStr) (h : chainWsHyphen l) : noAdjWs l := by
  apply List.Chain'.imp ?_ h
  intro a b hab hws
  exact (hab.1 hws).1

/-- C8: the Normalizer is idempotent — `normalize(normalize(x)) == normalize(x)`
for every string `x` — and returns the empty string for null/undefined input. -/
theorem normalizeHebrew_idempotent :
    (∀ x : Option JStr, normalizeHebrew (some (normalizeHebrew x)) = normalizeHebrew x) ∧
    normalizeHebrew none = [] := by
  constructor
  · intro x
    cases x with
    | none => rfl
    | some t =>
      by_cases ht : t = []
      · subst ht
        rfl
      · have h0 : normalizeHebrew (some t) =
            jsToLowerStr (deHyphen (collapseWs (jsTrim t))) := by
          rw [normalizeHebrew]
          rw [if_neg ht, replaceApos_eq_self, replaceApos_eq_self]
        set M : JStr := deHyphen (collapseWs (jsTrim t)) with hM
        rw [h0]
        by_cases hN : jsToLowerStr M = []
        · rw [hN]
          rfl
        · have hT1 : noLeadWs (jsTrim t) := noLeadWs_jsTrim t
          have hT2 : noTrailWs (jsTrim t) := noTrailWs_jsTrim t
          have hC1 : wsIsSpace (collapseWs (jsTrim t)) := wsIsSpace_collapseAux (jsTrim t) false
          have hC2 : noAdjWs (collapseWs (jsTrim t)) := (noAdjWs_collapseAux (jsTrim t)).1
          have hC3 : noLeadWs (collapseWs (jsTrim t)) := noLeadWs_collapseWs (jsTrim t) hT1
          have hC4 : noTrailWs (collapseWs (jsTrim t)) := noTrailWs_collapseAux (jsTrim t) hT2 false
          have hMch : chainWsHyphen M :=
            (deHyphenAux_chain (collapseWs (jsTrim t)) hC2 false [] (Or.inl rfl)).1
          have hMsp : wsIsSpace M := wsIsSpace_deHyphen (collapseWs (jsTrim t)) hC1
          have hMlead : noLeadWs M := deHyphen_noLead (collapseWs (jsTrim t)) hC3
          have hMtrail : noTrailWs M :=
            deHyphenAux_noTrail (collapseWs (jsTrim t)) hC4 false [] (by simp)
          have hNch : chainWsHyphen (jsToLowerStr M) := chainWsHyphen_jsToLowerStr M hMch
          have hNsp : wsIsSpace (jsToLowerStr M) := wsIsSpace_jsToLowerStr M hMsp
          have hNlead : noLeadWs (jsToLowerStr M) := noLeadWs_jsToLowerStr M hMlead
          have hNtrail : noTrailWs (jsToLowerStr M) := noTrailWs_jsToLowerStr M hMtrail
          have hNadj : noAdjWs (jsToLowerStr M) := noAdjWs_of_chainWsHyphen _ hNch
          have e1 : jsTrim (jsToLowerStr M) = jsToLowerStr M :=
            jsTrim_eq_self _ hNlead hNtrail
          have e2 : collapseWs (jsToLowerStr M) = jsToLowerStr M :=
            (collapseAux_id _ hNsp hNadj).1
          have e3 : deHyphen (jsToLowerStr M) = jsToLowerStr M :=
            (deHyphenAux_id _ hNch).1
          rw [normalizeHebrew]
          rw [if_neg hN, e1, e2, e3, replaceApos_eq_self, replaceApos_eq_self]
          exact jsToLowerStr_idem M
  · rfl

/-! ### The recursive edit-distance specification and edit scripts -/

theorem min3_cases (a b c : Nat) :
    Nat.min a (Nat.min b c) = a ∨ Nat.min a (Nat.min b c) = b ∨ Nat.min a (Nat.min b c) = c := by
  simp only [Nat.min_def]
  split_ifs <;> tauto

theorem min3_le_fst (a b c : Nat) : Nat.min a (Nat.min b c) ≤ a := Nat.min_le_left _ _

theorem min3_le_snd (a b c : Nat) : Nat.min a (Nat.min b c) ≤ b :=
  le_trans (Nat.min_le_right _ _) (Nat.min_le_left _ _)

theorem min3_le_thd (a b c : Nat) : Nat.min a (Nat.min b c) ≤ c :=
  le_trans (Nat.min_le_right _ _) (Nat.min_le_right _ _)

theorem levSpec_nil_right (xs : JStr) : levSpec xs [] = xs.length := by
  cases xs <;> simp [levSpec]

theorem levSpec_cons_eq {x y : Char} (xs ys : JStr) (h : x = y) :
    levSpec (x :: xs) (y :: ys) = levSpec xs ys := by
  simp [levSpec, h]

theorem levSpec_cons_ne {x y : Char} (xs ys : JStr) (h : ¬x = y) :
    levSpec (x :: xs) (y :: ys) =
      1 + Nat.min (levSpec xs (y :: ys)) (Nat.min (levSpec (x :: xs) ys) (levSpec xs ys)) := by
  simp [levSpec, h]

theorem levSpec_bounds : ∀ N xs ys, xs.length + ys.length ≤ N →
    (∀ a : Char, levSpec (a :: xs) ys ≤ 1 + levSpec xs ys) ∧
    (∀ y : Char, levSpec xs ys ≤ 1 + levSpec xs (y :: ys)) ∧
    (∀ b : Char, levSpec xs (b :: ys) ≤ 1 + levSpec xs ys) ∧
    (∀ x : Char, levSpec xs ys ≤ 1 + levSpec (x :: xs) ys) := by
  intro N
  induction N with
  | zero =>
    intro xs ys hlen
    have hx : xs = [] := by
      cases xs with
      | nil => rfl
      | cons _ _ => simp at hlen
    have hy : ys = [] := by
      cases ys with
      | nil => rfl
      | cons _ _ => rw [hx] at hlen; simp at hlen
    subst hx
    subst hy
    refine ⟨?_, ?_, ?_, ?_⟩ <;> intro c <;> simp [levSpec]
  | succ N ih =>
    intro xs ys hlen
    refine ⟨?_, ?_, ?_, ?_⟩
    · -- delete bound: levSpec (a :: xs) ys ≤ 1 + levSpec xs ys
      intro a
      cases ys with
      | nil =>
        simp only [levSpec_nil_right, List.length_cons]
        omega
      | cons y ys' =>
        by_cases hay : a = y
        · rw [levSpec_cons_eq xs ys' hay]
          exact (ih xs ys' (by simp at hlen ⊢; omega)).2.1 y
        · rw [levSpec_cons_ne xs ys' hay]
          have := min3_le_fst (levSpec xs (y :: ys')) (levSpec (a :: xs) ys') (levSpec xs ys')
          omega
    · -- drop from second argument: levSpec xs ys ≤ 1 + levSpec xs (y :: ys)
      intro y
      cases xs with
      | nil =>
        simp only [levSpec, List.length_cons]
        omega
      | cons x xs' =>
        by_cases hxy : x = y
        · rw [levSpec_cons_eq xs' ys hxy]
          exact (ih xs' ys (by simp at hlen ⊢; omega)).1 x
        · rw [levSpec_cons_ne xs' ys hxy]
          have hBC : levSpec (x :: xs') ys ≤ 1 + levSpec xs' ys :=
            (ih xs' ys (by simp at hlen ⊢; omega)).1 x
          have hCA : levSpec xs' ys ≤ 1 + levSpec xs' (y :: ys) :=
            (ih xs' ys (by simp at hlen ⊢; omega)).2.1 y
          rcases min3_cases (levSpec xs' (y :: ys)) (levSpec (x :: xs') ys) (levSpec xs' ys)
            with h | h | h <;> rw [h] <;> omega
    · -- insert bound: levSpec xs (b :: ys) ≤ 1 + levSpec xs ys
      intro b
      cases xs with
      | nil =>
        simp only [levSpec, List.length_cons]
        omega
      | cons x xs' =>
        by_cases hxb : x = b
        · rw [levSpec_cons_eq xs' ys hxb]
          exact (ih xs' ys (by simp at hlen ⊢; omega)).2.2.2 x
        · rw [levSpec_cons_ne xs' ys hxb]
          have := min3_le_snd (levSpec xs' (b :: ys)) (levSpec (x :: xs') ys) (levSpec xs' ys)
          omega
    · -- drop from first argument: levSpec xs ys ≤ 1 + levSpec (x :: xs) ys
      intro x
      cases ys with
      | nil =>
        simp only [levSpec_nil_right, List.length_cons]
        omega
      | cons y ys' =>
        by_cases hxy : x = y
        · rw [levSpec_cons_eq xs ys' hxy]
          exact (ih xs ys' (by simp at hlen ⊢; omega)).2.2.1 y
        · rw [levSpec_cons_ne xs ys' hxy]
          have hA : levSpec xs (y :: ys') ≤ 1 + levSpec xs ys' :=
            (ih xs ys' (by simp at hlen ⊢; omega)).2.2.1 y
          have hCB : levSpec xs ys' ≤ 1 + levSpec (x :: xs) ys' :=
            (ih xs ys' (by simp at hlen ⊢; omega)).2.2.2 x
          rcases min3_cases (levSpec xs (y :: ys')) (levSpec (x :: xs) ys') (levSpec xs ys')
            with h | h | h <;> rw [h] <;> omega

theorem levSpec_del_bound (xs ys : JStr) (a : Char) :
    levSpec (a :: xs) ys ≤ 1 + levSpec xs ys :=
  (levSpec_bounds (xs.length + ys.length) xs ys le_rfl).1 a

theorem levSpec_ins_bound (xs ys : JStr) (b : Char) :
    levSpec xs (b :: ys) ≤ 1 + levSpec xs ys :=
  (levSpec_bounds (xs.length + ys.length) xs ys le_rfl).2.2.1 b

theorem editScript_levSpec : ∀ xs ys, EditScript xs ys (levSpec xs ys) := by
  have hnil : ∀ ys : JStr, EditScript [] ys ys.length := by
    intro ys
    induction ys with
    | nil => exact EditScript.nil
    | cons y ys ih => exact EditScript.ins y ih
  have hnil' : ∀ xs : JStr, EditScript xs [] xs.length := by
    intro xs
    induction xs with
    | nil => exact EditScript.nil
    | cons x xs ih => exact EditScript.del x ih
  intro xs ys
  induction xs, ys using levSpec.induct with
  | case1 ys => simpa [levSpec] using hnil ys
  | case2 x xs => simpa [levSpec_nil_right] using hnil' (x :: xs)
  | case3 xs y ys ih =>
    rw [levSpec_cons_eq xs ys rfl]
    exact EditScript.copy y ih
  | case4 x xs y ys hne ih1 ih2 ih3 =>
    rw [levSpec_cons_ne xs ys hne]
    rcases min3_cases (levSpec xs (y :: ys)) (levSpec (x :: xs) ys) (levSpec xs ys)
      with h | h | h <;> rw [h, Nat.add_comm]
    · exact EditScript.del x ih1
    · exact EditScript.ins y ih2
    · exact EditScript.subst x y ih3

theorem levSpec_le_editScript {xs ys : JStr} {n : Nat} (h : EditScript xs ys n) :
    levSpec xs ys ≤ n := by
  induction h with
  | nil => simp [levSpec]
  | copy c h ih => rw [levSpec_cons_eq _ _ rfl]; exact ih
  | subst a b h ih =>
    rename_i xs2 ys2 n2
    by_cases hab : a = b
    · rw [levSpec_cons_eq _ _ hab]
      omega
    · rw [levSpec_cons_ne _ _ hab]
      have := min3_le_thd (levSpec xs2 (b :: ys2)) (levSpec (a :: xs2) ys2) (levSpec xs2 ys2)
      omega
  | del a h ih =>
    rename_i xs2 ys2 n2
    have := levSpec_del_bound xs2 ys2 a
    omega
  | ins b h ih =>
    rename_i xs2 ys2 n2
    have := levSpec_ins_bound xs2 ys2 b
    omega

theorem editScript_snoc_copy {xs ys : JStr} {n : Nat} (h : EditScript xs ys n) :
    ∀ c, EditScript (xs ++ [c]) (ys ++ [c]) n := by
  induction h with
  | nil => intro c; exact EditScript.copy c EditScript.nil
  | copy d h ih => intro c; exact EditScript.copy d (ih c)
  | subst a b h ih => intro c; exact EditScript.subst a b (ih c)
  | del a h ih => intro c; exact EditScript.del a (ih c)
  | ins b h ih => intro c; exact EditScript.ins b (ih c)

theorem editScript_snoc_subst {xs ys : JStr} {n : Nat} (h : EditScript xs ys n) :
    ∀ a b, EditScript (xs ++ [a]) (ys ++ [b]) (n + 1) := by
  induction h with
  | nil => intro a b; exact EditScript.subst a b EditScript.nil
  | copy d h ih => intro a b; exact EditScript.copy d (ih a b)
  | subst u v h ih => intro a b; exact EditScript.subst u v (ih a b)
  | del u h ih => intro a b; exact EditScript.del u (ih a b)
  | ins v h ih => intro a b; exact EditScript.ins v (ih a b)

theorem editScript_snoc_del {xs ys : JStr} {n : Nat} (h : EditScript xs ys n) :
    ∀ a, EditScript (xs ++ [a]) ys (n + 1) := by
  induction h with
  | nil => intro a; exact EditScript.del a EditScript.nil
  | copy d h ih => intro a; exact EditScript.copy d (ih a)
  | subst u v h ih => intro a; exact EditScript.subst u v (ih a)
  | del u h ih => intro a; exact EditScript.del u (ih a)
  | ins v h ih => intro a; exact EditScript.ins v (ih a)

theorem editScript_snoc_ins {xs ys : JStr} {n : Nat} (h : EditScript xs ys n) :
    ∀ b, EditScript xs (ys ++ [b]) (n + 1) := by
  induction h with
  | nil => intro b; exact EditScript.ins b EditScript.nil
  | copy d h ih => intro b; exact EditScript.copy d (ih b)
  | subst u v h ih => intro b; exact EditScript.subst u v (ih b)
  | del u h ih => intro b; exact EditScript.del u (ih b)
  | ins v h ih => intro b; exact EditScript.ins v (ih b)

theorem editScript_reverse {xs ys : JStr} {n : Nat} (h : EditScript xs ys n) :
    EditScript xs.reverse ys.reverse n := by
  induction h with
  | nil => exact EditScript.nil
  | copy c h ih =>
    rw [List.reverse_cons, List.reverse_cons]
    exact editScript_snoc_copy ih c
  | subst a b h ih =>
    rw [List.reverse_cons, List.reverse_cons]
    exact editScript_snoc_subst ih a b
  | del a h ih =>
    rw [List.reverse_cons]
    exact editScript_snoc_del ih a
  | ins b h ih =>
    rw [List.reverse_cons]
    exact editScript_snoc_ins ih b

theorem levSpec_reverse (xs ys : JStr) : levSpec xs.reverse ys.reverse = levSpec xs ys := by
  apply le_antisymm
  · exact levSpec_le_editScript (editScript_reverse (editScript_levSpec xs ys))
  · have h := levSpec_le_editScript (editScript_reverse (editScript_levSpec xs.reverse ys.reverse))
    rwa [List.reverse_reverse, List.reverse_reverse] at h

/-! ### The dynamic-programming table computes the edit distance -/

theorem min3_add_one (a b c : Nat) :
    1 + Nat.min a (Nat.min b c) = Nat.min (a + 1) (Nat.min (b + 1) (c + 1)) := by
  have l1 := min3_le_fst a b c
  have l2 := min3_le_snd a b c
  have l3 := min3_le_thd a b c
  have m1 := min3_le_fst (a + 1) (b + 1) (c + 1)
  have m2 := min3_le_snd (a + 1) (b + 1) (c + 1)
  have m3 := min3_le_thd (a + 1) (b + 1) (c + 1)
  rcases min3_cases a b c with h | h | h <;>
    rcases min3_cases (a + 1) (b + 1) (c + 1) with h2 | h2 | h2 <;> omega

theorem rowAux_shape (P Q : JStr) (s : JStr) :
    rowAux P Q s = levSpec P Q :: (rowAux P Q s).tail := by
  cases s <;> rfl

theorem levRowStep_cons (c1 c2 : Char) (left pdiag pj : Nat) (s2 : JStr) (ps : List Nat) :
    levRowStep c1 left (c2 :: s2) (pdiag :: pj :: ps) =
      (if c1 = c2 then pdiag else Nat.min (pj + 1) (Nat.min (left + 1) (pdiag + 1))) ::
      levRowStep c1
        (if c1 = c2 then pdiag else Nat.min (pj + 1) (Nat.min (left + 1) (pdiag + 1)))
        s2 (pj :: ps) := rfl

theorem rowStep_correct (s2tail : JStr) : ∀ (P Q : JStr) (c1 : Char),
    levRowStep c1 (levSpec (c1 :: P) Q) s2tail (rowAux P Q s2tail) =
      (rowAux (c1 :: P) Q s2tail).tail := by
  induction s2tail with
  | nil => intro P Q c1; rfl
  | cons c2 rest ih =>
    intro P Q c1
    obtain ⟨T, hT⟩ : ∃ T, rowAux P (c2 :: Q) rest = levSpec P (c2 :: Q) :: T := by
      cases rest <;> exact ⟨_, rfl⟩
    have hrow : rowAux P Q (c2 :: rest) = levSpec P Q :: levSpec P (c2 :: Q) :: T := by
      rw [show rowAux P Q (c2 :: rest) = levSpec P Q :: rowAux P (c2 :: Q) rest from rfl, hT]
    rw [hrow, levRowStep_cons]
    have hcur : (if c1 = c2 then levSpec P Q
        else Nat.min (levSpec P (c2 :: Q) + 1)
          (Nat.min (levSpec (c1 :: P) Q + 1) (levSpec P Q + 1))) =
        levSpec (c1 :: P) (c2 :: Q) := by
      by_cases h : c1 = c2
      · rw [if_pos h, levSpec_cons_eq P Q h]
      · rw [if_neg h, levSpec_cons_ne P Q h, min3_add_one]
    rw [hcur, ← hT, ih P (c2 :: Q) c1]
    rw [show rowAux (c1 :: P) Q (c2 :: rest) =
      levSpec (c1 :: P) Q :: rowAux (c1 :: P) (c2 :: Q) rest from rfl]
    rw [List.tail_cons]
    exact (rowAux_shape (c1 :: P) (c2 :: Q) rest).symm

theorem levLoop_correct (str2 : JStr) : ∀ (s1tail P : JStr),
    levLoop str2 s1tail (rowAux P [] str2) (P.length + 1) =
      rowAux (s1tail.reverse ++ P) [] str2 := by
  intro s1tail
  induction s1tail with
  | nil => intro P; simp [levLoop]
  | cons c1 rest ih =>
    intro P
    rw [levLoop]
    have hlen : P.length + 1 = levSpec (c1 :: P) [] := by
      rw [levSpec_nil_right]
      simp
    have hstep : levRowStep c1 (P.length + 1) str2 (rowAux P [] str2) =
        (rowAux (c1 :: P) [] str2).tail := by
      rw [hlen]
      exact rowStep_correct str2 P [] c1
    rw [hstep]
    have hcons : (P.length + 1) :: (rowAux (c1 :: P) [] str2).tail =
        rowAux (c1 :: P) [] str2 := by
      rw [hlen]
      exact (rowAux_shape (c1 :: P) [] str2).symm
    rw [hcons]
    have h2 : levLoop str2 rest (rowAux (c1 :: P) [] str2) ((c1 :: P).length + 1) =
        rowAux (rest.reverse ++ (c1 :: P)) [] str2 := ih (c1 :: P)
    have h3 : levLoop str2 rest (rowAux (c1 :: P) [] str2) (P.length + 1 + 1) =
        rowAux (rest.reverse ++ (c1 :: P)) [] str2 := by
      rw [show P.length + 1 + 1 = (c1 :: P).length + 1 from by simp]
      exact h2
    rw [h3]
    congr 1
    rw [List.reverse_cons, List.append_assoc]
    rfl

theorem rowAux_nil_eq (s : JStr) : ∀ Q : JStr,
    rowAux [] Q s = (List.range (s.length + 1)).map (fun j => j + Q.length) := by
  induction s with
  | nil =>
    intro Q
    show [levSpec [] Q] = _
    rw [show levSpec [] Q = Q.length from by simp [levSpec]]
    simp [List.range_succ]
  | cons c rest ih =>
    intro Q
    show levSpec [] Q :: rowAux [] (c :: Q) rest = _
    rw [ih (c :: Q)]
    conv_rhs =>
      rw [show (c :: rest).length + 1 = (rest.length + 1) + 1 from by simp]
      rw [List.range_succ_eq_map]
      rw [List.map_cons, List.map_map]
    congr 1
    · simp [levSpec]
    · apply List.map_congr_left
      intro j _
      simp
      omega

theorem rowAux_getLastD (s : JStr) : ∀ (Q P : JStr) (d : Nat),
    (rowAux P Q s).getLastD d = levSpec P (s.reverse ++ Q) := by
  induction s with
  | nil =>
    intro Q P d
    rfl
  | cons c rest ih =>
    intro Q P d
    show (levSpec P Q :: rowAux P (c :: Q) rest).getLastD d = _
    rw [List.getLastD_cons, ih (c :: Q) P (levSpec P Q)]
    congr 1
    rw [List.reverse_cons, List.append_assoc]
    rfl

theorem levenshteinDistance_eq_levSpec (s1 s2 : JStr) :
    levenshteinDistance s1 s2 = levSpec s1 s2 := by
  rw [levenshteinDistance]
  have hinit : List.range (s2.length + 1) = rowAux [] [] s2 := by
    rw [rowAux_nil_eq s2 []]
    simp
  rw [hinit]
  have h : levLoop s2 s1 (rowAux [] [] s2) 1 = rowAux (s1.reverse ++ []) [] s2 :=
    levLoop_correct s2 s1 []
  rw [h, rowAux_getLastD s2 [] (s1.reverse ++ []) 0]
  rw [List.append_nil, List.append_nil, levSpec_reverse]

theorem jsIncludes_nil_right (X : JStr) : jsIncludes X [] = true := by
  cases X <;> simp [jsIncludes, List.isPrefixOf]

/-- C7: `similar(a, b, t)` returns true iff the normalized forms are
equal, or one normalized form contains the other as a substring, or
their unit-cost insert/delete/substitute edit distance (`levSpec`, the
classic recurrence, proved equal to the source's DP table) is at most
`t`; in particular `similar("ירושלים", "ירושלים", 2)` is true and
`similar("abcdef", "abcxyz", 2)` is false. -/
theorem isSimilar_characterization :
    (∀ (a b : Option JStr) (t : Nat),
        isSimilar a b t = true ↔
          (normalizeHebrew a = normalizeHebrew b ∨
           jsIncludes (normalizeHebrew a) (normalizeHebrew b) = true ∨
           jsIncludes (normalizeHebrew b) (normalizeHebrew a) = true ∨
           levSpec (normalizeHebrew a) (normalizeHebrew b) ≤ t)) ∧
    isSimilar (some "ירושלים".data) (some "ירושלים".data) 2 = true ∧
    isSimilar (some "abcdef".data) (some "abcxyz".data) 2 = false := by
  refine ⟨?_, by decide, by decide⟩
  intro a b t
  simp only [isSimilar]
  split_ifs with h1 h2
  · constructor
    · intro _
      exact Or.inl h1
    · intro _
      rfl
  · constructor
    · intro _
      rcases (by simpa using h2 : jsIncludes (normalizeHebrew a) (normalizeHebrew b) = true ∨
          jsIncludes (normalizeHebrew b) (normalizeHebrew a) = true) with h | h
      · exact Or.inr (Or.inl h)
      · exact Or.inr (Or.inr (Or.inl h))
    · intro _
      rfl
  · rw [show (levenshteinDistance (normalizeHebrew a) (normalizeHebrew b) ≤ t : Bool)
        = decide (levenshteinDistance (normalizeHebrew a) (normalizeHebrew b) ≤ t) from rfl]
    rw [decide_eq_true_eq, levenshteinDistance_eq_levSpec]
    constructor
    · intro h
      exact Or.inr (Or.inr (Or.inr h))
    · intro h
      rcases h with h | h | h | h
      · exact absurd h h1
      · exact absurd (by simp [h] : (jsIncludes (normalizeHebrew a) (normalizeHebrew b) ||
          jsIncludes (normalizeHebrew b) (normalizeHebrew a)) = true) h2
      · exact absurd (by simp [h] : (jsIncludes (normalizeHebrew a) (normalizeHebrew b) ||
          jsIncludes (normalizeHebrew b) (normalizeHebrew a)) = true) h2
      · exact h

/-- C10: if the first argument of `similar` is null/undefined or
normalizes to the empty string, the containment short-circuit makes the
result true for every second argument and threshold. -/
theorem isSimilar_empty_first_arg (a b : Option JStr) (t : Nat)
    (h : a = none ∨ normalizeHebrew a = []) : isSimilar a b t = true := by
  have hn : normalizeHebrew a = [] := by
    rcases h with h | h
    · rw [h]
      rfl
    · exact h
  simp only [isSimilar, hn]
  split_ifs with h1 h2
  · rfl
  · rfl
  · exact absurd (by simp [jsIncludes_nil_right] :
      (jsIncludes [] (normalizeHebrew b) || jsIncludes (normalizeHebrew b) []) = true) h2

/-- Witness for C10 at a whitespace-only first argument. -/
theorem isSimilar_empty_first_arg_witness :
    isSimilar (some " ".data) (some "xyz".data) 0 = true :=
  isSimilar_empty_first_arg (some " ".data) (some "xyz".data) 0 (Or.inr (by decide))

/-! ### The JavaScript Map model -/

theorem mapGet_isSome_of_has (m : OsmMap) (k : JStr) (h : mapHas m k = true) :
    ∃ e, mapGet m k = some e := by
  induction m with
  | nil => simp [mapHas] at h
  | cons kv m' ih =>
    rw [mapHas, List.any_cons] at h
    by_cases hb : (kv.1 == k) = true
    · exact ⟨kv.2, by simp [mapGet, List.find?_cons, hb]⟩
    · simp only [hb, Bool.false_or] at h
      obtain ⟨e, he⟩ := ih h
      refine ⟨e, ?_⟩
      rw [mapGet, List.find?_cons_of_neg _ (by simpa using hb)]
      exact he

theorem mapGet_mapSet_self (m : OsmMap) (k : JStr) (v : OsmElement) :
    mapGet (mapSet m k v) k = some v := by
  rw [mapSet]
  by_cases hh : mapHas m k = true
  · rw [if_pos hh]
    induction m with
    | nil => simp [mapHas] at hh
    | cons kv m' ih =>
      rw [List.map_cons]
      by_cases hb : (kv.1 == k) = true
      · rw [if_pos hb]
        simp [mapGet, List.find?_cons]
      · rw [if_neg hb]
        rw [mapGet, List.find?_cons_of_neg _ (by simpa using hb)]
        rw [mapHas, List.any_cons] at hh
        simp only [hb, Bool.false_or] at hh
        exact ih hh
  · rw [if_neg hh]
    have hnone : m.find? (fun kv => kv.1 == k) = none := by
      rw [List.find?_eq_none]
      intro kv hkv
      rw [mapHas] at hh
      intro hb
      exact hh (List.any_eq_true.mpr ⟨kv, hkv, hb⟩)
    rw [mapGet, List.find?_append, hnone]
    simp

theorem mapGet_cons_pos (a : JStr × OsmElement) (m : OsmMap) (k' : JStr)
    (h : (a.1 == k') = true) : mapGet (a :: m) k' = some a.2 := by
  simp [mapGet, List.find?_cons, h]

theorem mapGet_cons_neg (a : JStr × OsmElement) (m : OsmMap) (k' : JStr)
    (h : ¬(a.1 == k') = true) : mapGet (a :: m) k' = mapGet m k' := by
  have hf : (a.1 == k') = false := by simpa using h
  simp [mapGet, List.find?_cons, hf]

theorem mapGet_append_single (m : OsmMap) (k k' : JStr) (v : OsmElement) (h : k' ≠ k) :
    mapGet (m ++ [(k, v)]) k' = mapGet m k' := by
  induction m with
  | nil =>
    rw [List.nil_append]
    rw [mapGet_cons_neg (k, v) [] k' (by
      simp only [beq_iff_eq]
      intro habs
      exact h habs.symm)]
  | cons kv m' ih =>
    rw [List.cons_append]
    by_cases hb : (kv.1 == k') = true
    · rw [mapGet_cons_pos _ _ _ hb, mapGet_cons_pos _ _ _ hb]
    · rw [mapGet_cons_neg _ _ _ hb, mapGet_cons_neg _ _ _ hb, ih]

theorem mapGet_mapSet_ne (m : OsmMap) (k k' : JStr) (v : OsmElement) (h : k' ≠ k) :
    mapGet (mapSet m k v) k' = mapGet m k' := by
  rw [mapSet]
  by_cases hh : mapHas m k = true
  · rw [if_pos hh]
    induction m with
    | nil => rfl
    | cons kv m' ih =>
      rw [List.map_cons]
      by_cases hb : (kv.1 == k) = true
      · rw [if_pos hb]
        have h1 : kv.1 = k := by simpa using hb
        have h2 : ¬(((k, v) : JStr × OsmElement).1 == k') = true := by
          simp only [beq_iff_eq]
          intro habs
          exact h habs.symm
        have h3 : ¬(kv.1 == k') = true := by
          rw [h1]
          simp only [beq_iff_eq]
          intro habs
          exact h habs.symm
        rw [mapGet_cons_neg _ _ _ h2, mapGet_cons_neg _ _ _ h3]
        by_cases hh' : mapHas m' k = true
        · exact ih hh'
        · have hfix : m'.map (fun kv => if kv.1 == k then (k, v) else kv) = m' := by
            conv_rhs => rw [← List.map_id m']
            apply List.map_congr_left
            intro x hx
            rw [if_neg (by
              intro habs
              rw [mapHas] at hh'
              exact hh' (List.any_eq_true.mpr ⟨x, hx, habs⟩))]
            rfl
          rw [hfix]
      · rw [if_neg hb]
        by_cases hb' : (kv.1 == k') = true
        · rw [mapGet_cons_pos _ _ _ hb', mapGet_cons_pos _ _ _ hb']
        · rw [mapGet_cons_neg _ _ _ hb', mapGet_cons_neg _ _ _ hb']
          rw [mapHas, List.any_cons] at hh
          simp only [hb, Bool.false_or] at hh
          exact ih hh
  · rw [if_neg hh]
    exact mapGet_append_single m k k' v h

theorem mapHas_mapSet_of_has (m : OsmMap) (k k' : JStr) (v : OsmElement)
    (h : mapHas m k' = true) : mapHas (mapSet m k v) k' = true := by
  rw [mapSet]
  by_cases hh : mapHas m k = true
  · rw [if_pos hh]
    rw [mapHas, List.any_eq_true] at h ⊢
    obtain ⟨kv, hkv, hb⟩ := h
    by_cases hbk : (kv.1 == k) = true
    · refine ⟨(k, v), List.mem_map.mpr ⟨kv, hkv, by rw [if_pos hbk]⟩, ?_⟩
      have e1 : kv.1 = k := by simpa using hbk
      have e2 : kv.1 = k' := by simpa using hb
      simp [← e1, e2]
    · exact ⟨kv, List.mem_map.mpr ⟨kv, hkv, by rw [if_neg hbk]⟩, hb⟩
  · rw [if_neg hh]
    rw [mapHas, List.any_eq_true] at h ⊢
    obtain ⟨kv, hkv, hb⟩ := h
    exact ⟨kv, List.mem_append_left _ hkv, hb⟩

/-- C2 counterexample: two OSM elements both named `א`.  The first writes
the key `א` (both as normalized and as raw trimmed name); inserting the
second replaces that mapping via the unconditional raw-key `set`, so the
index does NOT retain the first writer. -/
theorem lookup_index_first_writer_cx :
    mapGet (buildLookup [e1cx]) "א".data = some e1cx ∧
    mapGet (buildLookup [e1cx, e2cx]) "א".data = some e2cx ∧
    e1cx ≠ e2cx := by
  refine ⟨by decide, by decide, by decide⟩

/-- C2 amended: inserting an element only ever changes an already-present
key when that key equals the element's raw trimmed local-language name
(the unconditional `set`); the normalized local key and the normalized
foreign-alias key are inserted only if absent, so for those keys the
first writer wins, while the raw trimmed local key is last-writer-wins. -/
theorem lookup_index_insert_amended (m : OsmMap) (e : OsmElement) (k : JStr)
    (hk : mapHas m k = true) :
    mapGet (insertOsmElement m e) k =
      if truthyStr (jsOrStr e.tagName e.tagNameHe) = true ∧
          jsTrim ((jsOrStr e.tagName e.tagNameHe).getD []) = k
      then some e else mapGet m k := by
  simp only [insertOsmElement]
  set nameHe := jsOrStr e.tagName e.tagNameHe with hHe
  set nameEn := jsOrStr e.tagNameEn e.tagIntName with hEn
  set normalized := normalizeHebrew (some (nameHe.getD [])) with hNorm
  set raw := jsTrim (nameHe.getD []) with hRaw
  set nEn := jsToLowerStr (jsTrim (nameEn.getD [])) with hNEn
  set mA := if mapHas m normalized = true then m else mapSet m normalized e with hmA
  set m1 := if truthyStr nameHe = true then mapSet mA raw e else m with hm1
  have hAhas : mapHas mA k = true := by
    rw [hmA]
    by_cases h2 : mapHas m normalized = true
    · rw [if_pos h2]
      exact hk
    · rw [if_neg h2]
      exact mapHas_mapSet_of_has m normalized k e hk
  have hm1has : mapHas m1 k = true := by
    rw [hm1]
    by_cases hT : truthyStr nameHe = true
    · rw [if_pos hT]
      exact mapHas_mapSet_of_has mA raw k e hAhas
    · rw [if_neg hT]
      exact hk
  have hm1get : mapGet m1 k =
      if truthyStr nameHe = true ∧ raw = k then some e else mapGet m k := by
    rw [hm1]
    by_cases hT : truthyStr nameHe = true
    · rw [if_pos hT]
      by_cases hkey : raw = k
      · rw [if_pos ⟨hT, hkey⟩, ← hkey]
        exact mapGet_mapSet_self mA raw e
      · rw [if_neg (by
          intro habs
          exact hkey habs.2)]
        rw [mapGet_mapSet_ne mA raw k e (fun habs => hkey habs.symm)]
        rw [hmA]
        by_cases h2 : mapHas m normalized = true
        · rw [if_pos h2]
        · rw [if_neg h2]
          rw [mapGet_mapSet_ne m normalized k e (by
            intro habs
            rw [habs] at hk
            exact h2 hk)]
    · rw [if_neg hT, if_neg (by
        intro habs
        exact hT habs.1)]
  by_cases hTe : truthyStr nameEn = true
  · rw [if_pos hTe]
    by_cases hHn : mapHas m1 nEn = true
    · rw [if_pos hHn]
      exact hm1get
    · rw [if_neg hHn]
      rw [mapGet_mapSet_ne m1 nEn k e (by
        intro habs
        rw [habs] at hm1has
        exact hHn hm1has)]
      exact hm1get
  · rw [if_neg hTe]
    exact hm1get

/-- Witness for the amended C2 statement: inserting `e2cx` into a map
that already holds `א` overwrites it, because `א` is `e2cx`'s raw
trimmed local name. -/
theorem lookup_index_insert_amended_witness :
    mapHas [("א".data, e1cx)] "א".data = true ∧
    mapGet (insertOsmElement [("א".data, e1cx)] e2cx) "א".data =
      (if truthyStr (jsOrStr e2cx.tagName e2cx.tagNameHe) = true ∧
          jsTrim ((jsOrStr e2cx.tagName e2cx.tagNameHe).getD []) = "א".data
       then some e2cx else mapGet [("א".data, e1cx)] "א".data) :=
  ⟨by decide, lookup_index_insert_amended [("א".data, e1cx)] e2cx "א".data (by decide)⟩

/-! ### Reconciliation -/

/-- C3: a registry record with only a foreign name, absent from the
manual overrides, whose foreign name is in the index, resolves through
the exact-foreign tier (`exact_en`), never through the manual or
exact-local tier, and produces no unmatched record. -/
theorem reconcile_foreign_only_exact_en (m : OsmMap) (manual : ManualMatches) (t : Town)
    (hheb : truthyStr (t.hebrewNameRaw.map jsTrim) = false)
    (hen : truthyStr (t.englishNameRaw.map jsTrim) = true)
    (hmanual : objLookup manual ((t.hebrewNameRaw.map jsTrim).getD []) = none)
    (hlookup : mapHas m (jsTrim (jsToLowerStr ((t.englishNameRaw.map jsTrim).getD []))) = true) :
    ∃ e : OsmElement,
      mapGet m (jsTrim (jsToLowerStr ((t.englishNameRaw.map jsTrim).getD []))) = some e ∧
      matchTown m manual (t.hebrewNameRaw.map jsTrim) (t.englishNameRaw.map jsTrim) =
        some (e, MatchType.exact_en) ∧
      (reconcile m manual [t]).1.map MatchedLoc.matchType = [MatchType.exact_en] ∧
      (reconcile m manual [t]).2 = [] := by
  obtain ⟨e, he⟩ := mapGet_isSome_of_has m _ hlookup
  have h1 : matchTown m manual (t.hebrewNameRaw.map jsTrim) (t.englishNameRaw.map jsTrim) =
      some (e, MatchType.exact_en) := by
    simp [matchTown, hheb, hen, hlookup, he]
  refine ⟨e, he, h1, ?_, ?_⟩
  · simp [reconcile, processTown, hheb, hen, h1]
  · simp [reconcile, processTown, hheb, hen, h1]

/-- Witness for C3 at a concrete index, overrides and registry record. -/
theorem reconcile_foreign_only_exact_en_witness :
    truthyStr (tEn.hebrewNameRaw.map jsTrim) = false ∧
    (∃ e : OsmElement,
      mapGet (buildLookup [eEn])
          (jsTrim (jsToLowerStr ((tEn.englishNameRaw.map jsTrim).getD []))) = some e ∧
      matchTown (buildLookup [eEn]) [] (tEn.hebrewNameRaw.map jsTrim)
          (tEn.englishNameRaw.map jsTrim) = some (e, MatchType.exact_en) ∧
      (reconcile (buildLookup [eEn]) [] [tEn]).1.map MatchedLoc.matchType =
        [MatchType.exact_en] ∧
      (reconcile (buildLookup [eEn]) [] [tEn]).2 = []) :=
  ⟨by decide,
   reconcile_foreign_only_exact_en (buildLookup [eEn]) [] tEn
     (by decide) (by decide) (by decide) (by decide)⟩

/-- C5: a registry record with at least one name, whose local name hits
neither the overrides nor the index and whose foreign name also misses
the index, yields exactly one unmatched record and no resolved location;
the miss is an ordinary return value. -/
theorem reconcile_total_miss_unmatched (m : OsmMap) (manual : ManualMatches) (t : Town)
    (hname : truthyStr (t.hebrewNameRaw.map jsTrim) = true ∨
      truthyStr (t.englishNameRaw.map jsTrim) = true)
    (hmanual : objLookup manual ((t.hebrewNameRaw.map jsTrim).getD []) = none)
    (hhe : truthyStr (t.hebrewNameRaw.map jsTrim) = true →
      mapHas m (normalizeHebrew (t.hebrewNameRaw.map jsTrim)) = false)
    (hen : truthyStr (t.englishNameRaw.map jsTrim) = true →
      mapHas m (jsTrim (jsToLowerStr ((t.englishNameRaw.map jsTrim).getD []))) = false) :
    reconcile m manual [t] =
      ([], [{ name := t.hebrewNameRaw.map jsTrim, nameEn := t.englishNameRaw.map jsTrim,
              townCode := t.townCodeRaw.map jsTrim }]) := by
  have hmt : matchTown m manual (t.hebrewNameRaw.map jsTrim)
      (t.englishNameRaw.map jsTrim) = none := by
    by_cases hT : truthyStr (t.hebrewNameRaw.map jsTrim) = true
    · by_cases hTe : truthyStr (t.englishNameRaw.map jsTrim) = true
      · simp [matchTown, hT, hTe, hmanual, hhe hT, hen hTe]
      · simp [matchTown, hT, hTe, hmanual, hhe hT]
    · by_cases hTe : truthyStr (t.englishNameRaw.map jsTrim) = true
      · simp [matchTown, hT, hTe, hen hTe]
      · simp [matchTown, hT, hTe]
  have hguard : (!truthyStr (t.hebrewNameRaw.map jsTrim) &&
      !truthyStr (t.englishNameRaw.map jsTrim)) = false := by
    rcases hname with h | h <;> simp [h]
  simp [reconcile, processTown, hguard, hmt]

/-- Witness for C5 at the empty index and overrides. -/
theorem reconcile_total_miss_unmatched_witness :
    reconcile [] [] [tMiss] =
      ([], [{ name := tMiss.hebrewNameRaw.map jsTrim,
              nameEn := tMiss.englishNameRaw.map jsTrim,
              townCode := tMiss.townCodeRaw.map jsTrim }]) :=
  reconcile_total_miss_unmatched [] [] tMiss (Or.inl (by decide)) (by decide)
    (by decide) (by decide)

/-! ### Merge/Dedup & Sort stage -/

/-- C1 counterexample: merging a prior set holding id 1 with a new set
holding id 1 again keeps BOTH records — the merged output has two records
with id 1, so the stage neither deduplicates by id nor drops later
duplicates. -/
theorem merge_stage_no_dedup_cx :
    (mergeLocations cxPrior cxNew).countP (fun r => r.id == 1) = 2 := by
  have hp : (mergeLocations cxPrior cxNew).Perm (cxPrior ++ cxNew) :=
    List.mergeSort_perm _ _
  rw [hp.countP_eq]
  decide

/-- C1 amended: the merge stage performs no deduplication at all — the
output is a permutation of the concatenation of the two inputs, so every
record (duplicate ids included) survives with its multiplicity; nothing
is dropped or merged field-by-field. -/
theorem merge_stage_concat_perm : ∀ (cur succ : List MergedRec),
    (mergeLocations cur succ).Perm (cur ++ succ) ∧
    ∀ p : MergedRec → Bool,
      (mergeLocations cur succ).countP p = (cur ++ succ).countP p := by
  intro cur succ
  have hp : (mergeLocations cur succ).Perm (cur ++ succ) :=
    List.mergeSort_perm _ _
  exact ⟨hp, fun p => hp.countP_eq p⟩

/-- C6: the merged output is sorted descending by `population` with a
missing population read as `0` (the sort key is `population || 0`), it is
a permutation of its input, and every record whose key is `0` — in
particular every record lacking a population — sits after all records
with a positive key. -/
theorem merge_stage_sorted_by_population : ∀ (cur succ : List MergedRec),
    List.Pairwise (fun a b => popKey b ≤ popKey a) (mergeLocations cur succ) ∧
    (mergeLocations cur succ).Perm (cur ++ succ) ∧
    List.Pairwise (fun a b => popKey a = 0 → popKey b = 0) (mergeLocations cur succ) := by
  intro cur succ
  have hs : List.Pairwise (fun a b : MergedRec => (decide (popKey b ≤ popKey a)) = true)
      (mergeLocations cur succ) :=
    List.sorted_mergeSort
      (by
        intro a b c h1 h2
        simp at h1 h2 ⊢
        omega)
      (by
        intro a b
        simp
        omega)
      (cur ++ succ)
  have hord : List.Pairwise (fun a b : MergedRec => popKey b ≤ popKey a)
      (mergeLocations cur succ) :=
    hs.imp (fun h => of_decide_eq_true h)
  refine ⟨hord, List.mergeSort_perm _ _, ?_⟩
  exact hord.imp (fun h ha => by omega)

/-! ### Geocoding gap-filler -/

/-- C4: an `OVER_QUERY_LIMIT` response records the current town as failed
and halts: whatever the remaining queue holds, the loop returns at once,
preserving every accumulated success untouched.  On the stub
`[OK, QUOTA_EXCEEDED, OK]` the run ends with one success, one failure,
and no request for the third record. -/
theorem gapfiller_quota_halts :
    (∀ (stub : Nat → ApiResponse) (town : UnmatchedEntry) (rest : List UnmatchedEntry)
        (i : Nat) (acc : GeoResults),
      skipRule town = false → stub i = ApiResponse.overQueryLimit →
      geocodeLoop stub (town :: rest) i acc =
        { acc with
            failed := acc.failed ++ [{ town := town, error := "API quota exceeded".data }],
            attempted := acc.attempted ++ [i] }) ∧
    (geocodeAll quotaStub [tA, tB, tC]).successful.length = 1 ∧
    (geocodeAll quotaStub [tA, tB, tC]).failed.length = 1 ∧
    (geocodeAll quotaStub [tA, tB, tC]).attempted = [0, 1] := by
  refine ⟨?_, by decide, by decide, by decide⟩
  intro stub town rest i acc hskip hstub
  simp [geocodeLoop, hskip, hstub, geocodeLocation]

/-- Witness for the general halt statement of C4. -/
theorem gapfiller_quota_halts_witness :
    skipRule tA = false ∧
    geocodeLoop (fun _ => ApiResponse.overQueryLimit) [tA] 0 emptyGeoResults =
      { emptyGeoResults with
          failed := emptyGeoResults.failed ++ [{ town := tA, error := "API quota exceeded".data }],
          attempted := emptyGeoResults.attempted ++ [0] } :=
  ⟨by decide,
   gapfiller_quota_halts.1 (fun _ => ApiResponse.overQueryLimit) tA [] 0 emptyGeoResults
     (by decide) rfl⟩

/-- C9 counterexample: `שמעה` is an entry of the known-missing.cjs
denylist, yet the gap-filler does NOT skip it — the run issues a geocode
request for it (request index 0) and records it as failed, with nothing
in `skipped`. -/
theorem gapfiller_denylist_cx :
    "שמעה".data ∈ knownMissing ∧
    (geocodeAll zeroStub [tShimaa]).skipped = [] ∧
    (geocodeAll zeroStub [tShimaa]).attempted = [0] ∧
    (geocodeAll zeroStub [tShimaa]).failed.length = 1 :=
  ⟨by decide, by decide, by decide, by decide⟩

/-- C9 amended: the skip rule is the hardcoded pair of patterns — a
local-language name containing `שבט` or exactly equal to `לא רשום` — not
the known-missing.cjs denylist file.  A record matching those patterns
goes directly to `skipped` and no geocode request is ever issued for it. -/
theorem gapfiller_skip_patterns :
    (∀ (stub : Nat → ApiResponse) (town : UnmatchedEntry) (rest : List UnmatchedEntry)
        (i : Nat) (acc : GeoResults),
      skipRule town = true →
      geocodeLoop stub (town :: rest) i acc =
        geocodeLoop stub rest (i + 1) { acc with skipped := acc.skipped ++ [town] }) ∧
    (∀ (stub : Nat → ApiResponse) (town : UnmatchedEntry),
      skipRule town = true →
      geocodeAll stub [town] =
        { successful := [], failed := [], skipped := [town], attempted := [] }) := by
  constructor
  · intro stub town rest i acc hskip
    simp [geocodeLoop, hskip]
  · intro stub town hskip
    simp [geocodeAll, geocodeLoop, hskip, emptyGeoResults]

/-- Witness for the amended C9 statement at a tribal denylist name. -/
theorem gapfiller_skip_patterns_witness :
    skipRule tShevet = true ∧
    geocodeAll zeroStub [tShevet] =
      { successful := [], failed := [], skipped := [tShevet], attempted := [] } :=
  ⟨by decide, gapfiller_skip_patterns.2 zeroStub tShevet (by decide)⟩
